import Mathlib

/-!
Verification of the segmented download-and-mux pipeline of crunchy-cli
(crunchy-cli-core/src/utils/download.rs), as a shallow embedding in Lean.

The embedding follows the Rust source function by function:

* the ordered reassembly loop of `Downloader::download_segments`
  (channel consumer with a BTreeMap buffer and a cursor),
* the free-space preflight `Downloader::check_free_space`,
* the chapter writer `write_ffmpeg_chapters`,
* the subtitle repair `fix_subtitles` (with its inner `format_naive_time`),
* the per-segment fetch/retry/decrypt loop of `download_segments`,
* the progress-message width computation of `Downloader::download`,
* the subtitle disposition flags of `Downloader::download`.

Byte payloads are modelled as lists of naturals; Rust integers are modelled
as Nat or Int (segment positions are i32 in the source and are modelled as
Int; none of the verified properties exercises 32-bit wrap-around).
Functions that can panic in Rust (an unwrap on a failed parse) are modelled
as Option-valued, with none standing for the panic.
-/

namespace CrunchyCli

/-- Decrypted segment payload bytes. -/
abbrev Bytes := List Nat

/-- State of the reassembly consumer in download_segments: the cursor
(data_pos in the source, an i32), the BTreeMap buffer (modelled as an
association list sorted by key), and the bytes written to the sink so far. -/
structure ReasmState where
  dataPos : Int
  buf : List (Int × Bytes)
  out : Bytes
deriving DecidableEq, Repr

/-- Insertion into the key-sorted association list modelling the BTreeMap
(buf.insert(pos, bytes) in the source); an existing binding is overwritten. -/
def btreeInsert (k : Int) (v : Bytes) : List (Int × Bytes) → List (Int × Bytes)
  | [] => [(k, v)]
  | (k', v') :: t =>
    if k < k' then (k, v) :: (k', v') :: t
    else if k = k' then (k, v) :: t
    else (k', v') :: btreeInsert k v t

/-- Removal from the BTreeMap model (buf.remove(&data_pos) in the source):
returns the removed value and the remaining map, or none if absent. -/
def btreeRemove (k : Int) : List (Int × Bytes) → Option (Bytes × List (Int × Bytes))
  | [] => none
  | (k', v') :: t =>
    if k = k' then some (v', t)
    else match btreeRemove k t with
      | none => none
      | some (v, t') => some (v, (k', v') :: t')

/-- The drain loop of the consumer, with explicit recursion fuel
(while let Some(b) = buf.remove(&data_pos) in the source):
repeatedly pops the entry at the cursor, writes it and advances the cursor.
Each iteration removes one buffer entry, so the buffer length is an exact
fuel bound and drain below runs the loop to completion. -/
def drainFuel : Nat → ReasmState → ReasmState
  | 0, s => s
  | fuel + 1, s =>
    match btreeRemove s.dataPos s.buf with
    | none => s
    | some (b, rest) => drainFuel fuel { dataPos := s.dataPos + 1, buf := rest, out := s.out ++ b }

/-- The drain loop of the consumer run to completion. -/
def drain (s : ReasmState) : ReasmState := drainFuel s.buf.length s

/-- One arrival handled by the consumer loop: either the position matches the
cursor and the bytes are written directly, or they are buffered; afterwards
the buffer is drained at the (possibly advanced) cursor. -/
def recvStep (s : ReasmState) (a : Int × Bytes) : ReasmState :=
  drain
    (if s.dataPos = a.1 then
      { dataPos := s.dataPos + 1, buf := s.buf, out := s.out ++ a.2 }
    else
      { dataPos := s.dataPos, buf := btreeInsert a.1 a.2 s.buf, out := s.out })

/-- The consumer loop over the channel of arrivals
(while let Some((pos, bytes)) = receiver.recv().await in the source);
an arrival with negative position is the worker-failure marker and
makes the loop stop accepting further arrivals. -/
def consume : ReasmState → List (Int × Bytes) → ReasmState
  | s, [] => s
  | s, a :: rest => if a.1 < 0 then s else consume (recvStep s a) rest

/-- Errors download_segments can end with, after the consumer loop:
a worker error propagated from the JoinSet, or the final integrity bail
listing the keys remaining in the buffer. -/
inductive DlError where
  | worker : DlError
  | integrity : List Int → DlError
deriving DecidableEq, Repr

/-- The consumer side of download_segments as a function of the arrival
sequence delivered over the channel and of whether some worker
returned an error (which the JoinSet-join loop propagates before the final
flush): runs the consumer loop, propagates a worker error, flushes the
remaining contiguous buffer, and bails with the leftover keys if the buffer
is still non-empty. On success the value is the byte sequence written to
the sink. -/
def download_segments (arrivals : List (Int × Bytes)) (workerFailed : Bool) :
    Except DlError Bytes :=
  let s := consume ⟨0, [], []⟩ arrivals
  if workerFailed then .error .worker
  else
    let s' := drain s
    if s'.buf.isEmpty then .ok s'.out
    else .error (.integrity (s'.buf.map Prod.fst))

/-- Static partition of segment indices over the worker lanes
(segs[i - ((i / cpus) * cpus)].push(segment) in the source, i.e. lane
l gets the indices congruent to l mod W, in ascending order). -/
def laneIdx (N W l : Nat) : List Nat :=
  (List.range N).filter (fun i => i % W = l)

/-- The arrival sequence a single worker lane sends over the channel when no
error occurs: its assigned indices in ascending order, paired with the
decrypted payloads (thread_sender.send((num + i*cpus, buf)) in the source). -/
def laneSends (p : Nat → Bytes) (N W l : Nat) : List (Int × Bytes) :=
  (laneIdx N W l).map (fun (i : Nat) => ((i : Int), p i))

/-- All lanes of a download with N segments and W worker lanes. -/
def allLanes (p : Nat → Bytes) (N W : Nat) : List (List (Int × Bytes)) :=
  (List.range W).map (laneSends p N W)

/-- An interleaving of several lane sequences: the order within each lane is
preserved, arrivals of different lanes mix arbitrarily. This models the
nondeterministic delivery order of the mpsc channel. -/
inductive Interleaving {α : Type} : List (List α) → List α → Prop
  | nil (ls : List (List α)) (h : ∀ l ∈ ls, l = []) : Interleaving ls []
  | step (ls : List (List α)) (i : Nat) (x : α) (rest : List α) (out : List α)
      (hi : i < ls.length) (hhead : ls.get ⟨i, hi⟩ = x :: rest)
      (htail : Interleaving (ls.set i rest) out) : Interleaving ls (x :: out)

/-- Concatenation of the payloads of the first k segments in index order. -/
def joinRange (p : Nat → Bytes) (k : Nat) : Bytes :=
  ((List.range k).map p).flatten

/-- Keys of the buffer, in buffer order (ascending, as in BTreeMap::into_keys). -/
def bufKeys (buf : List (Int × Bytes)) : List Int := buf.map Prod.fst

/-- The buffer is strictly sorted by key (the BTreeMap representation invariant). -/
def SortedKeys (buf : List (Int × Bytes)) : Prop :=
  buf.Pairwise (fun a b => a.1 < b.1)

/-- Every buffered entry holds the payload of a segment with index in [lo, N). -/
def InvBuf (N : Nat) (p : Nat → Bytes) (lo : Nat) (buf : List (Int × Bytes)) : Prop :=
  ∀ q ∈ buf, ∃ j : Nat, q.1 = (j : Int) ∧ lo ≤ j ∧ j < N ∧ q.2 = p j

/-! Free-space preflight (Downloader::check_free_space). -/

/-- Filesystem statistics as returned by fs2::statvfs (u64 byte counts). -/
structure FsStat where
  total_space : Nat
  available_space : Nat
deriving DecidableEq, Repr

/-- Decision core of Downloader::check_free_space: given the statvfs results
for the temp directory and for the nearest existing ancestor of the
destination, the estimated required bytes, and whether the destination is
exempt (is_special_file(dst) or dst == "-"), returns the
(tmp_required, dst_required) pair whose components are some exactly when
the respective warning is emitted by the caller. When the two paths look
like the same filesystem (equal total space, available-space delta below
10240 bytes computed on i64), the source doubles both available-space
figures before comparing them with the requirement. -/
def check_free_space (tmp_stat dst_stat : FsStat) (estimated_required_space : Nat)
    (dstExempt : Bool) : Option Nat × Option Nat :=
  let sameFs : Bool :=
    tmp_stat.total_space == dst_stat.total_space &&
      ((tmp_stat.available_space : Int) - (dst_stat.available_space : Int)).natAbs < 10240
  let tmp_space := if sameFs then tmp_stat.available_space * 2 else tmp_stat.available_space
  let dst_space := if sameFs then dst_stat.available_space * 2 else dst_stat.available_space
  ((if tmp_space < estimated_required_space then some estimated_required_space else none),
   (if !dstExempt && dst_space < estimated_required_space
    then some estimated_required_space else none))

/-! Chapter generation (write_ffmpeg_chapters). -/

/-- One chapter record or skip event: title, start seconds, end seconds
(SkipEventsEvent carries u32 seconds in the source). -/
abbrev SkipEvent := String × Nat × Nat

/-- The event loop of write_ffmpeg_chapters: walks the events sorted by
start, prepends an Episode filler chapter when the event starts more than
10 seconds (i32 comparison) after the previous chapter end (0 initially),
and returns the chapter records together with the final last_end_time. -/
def chapterLoop (last_end_time : Nat) : List SkipEvent → List SkipEvent × Nat
  | [] => ([], last_end_time)
  | (name, s, e) :: rest =>
    let fill : List SkipEvent :=
      if 10 < (s : Int) - (last_end_time : Int) then [("Episode", last_end_time, s)] else []
    let tail := chapterLoop e rest
    (fill ++ (name, s, e) :: tail.1, tail.2)

/-- Chapter records written by write_ffmpeg_chapters (the ;FFMETADATA1
header aside): stable sort of the events by start (Rust sort_by, modelled
by insertionSort with a total ≤ relation, which is stable), the event loop,
and a trailing Episode chapter when the video end is more than 10 seconds
past the last chapter end. -/
def write_ffmpeg_chapters (video_len : Nat) (events : List SkipEvent) : List SkipEvent :=
  let sorted := List.insertionSort (fun a b : SkipEvent => a.2.1 ≤ b.2.1) events
  let body := chapterLoop 0 sorted
  body.1 ++
    (if 10 < (video_len : Int) - (body.2 : Int) then [("Episode", body.2, video_len)] else [])

/-- The chapter sequence in the words of the specification: after sorting by
start time, a filler chapter titled Episode precedes an event exactly when
the gap from the previous chapter end (0 initially) to the event start
exceeds 10 seconds, and a trailing Episode chapter covers the gap to the
total video length exactly when that gap exceeds 10 seconds. -/
def chaptersSpecLoop (prevEnd video_len : Nat) : List SkipEvent → List SkipEvent
  | [] =>
    if 10 < (video_len : Int) - (prevEnd : Int) then [("Episode", prevEnd, video_len)] else []
  | (name, s, e) :: rest =>
    (if 10 < (s : Int) - (prevEnd : Int) then [("Episode", prevEnd, s)] else []) ++
      (name, s, e) :: chaptersSpecLoop e video_len rest

/-- Chapter sequence per the specification sentence (see chaptersSpecLoop). -/
def chaptersSpec (video_len : Nat) (events : List SkipEvent) : List SkipEvent :=
  chaptersSpecLoop 0 video_len
    (List.insertionSort (fun a b : SkipEvent => a.2.1 ≤ b.2.1) events)

/-! Per-segment fetch with retry (the worker closure in download_segments). -/

/-- Errors of the per-segment worker: the bail after the last retry
(Max retry count reached, carrying the final retry_count and the last
underlying error) or a decryption error propagated immediately by the
question-mark operator. -/
inductive SegError where
  | maxRetry : Nat → String → SegError
  | decrypt : String → SegError
deriving DecidableEq, Repr

/-- The retry loop of one segment: attempt k is the outcome of the k-th
fetch (request send plus body read). left is the number of retries still
allowed; the source counts retry_count up from 0 and bails when
retry_count == 5, so left = 5 - retry_count and the loop is entered with
left = 5, retry_count = 0. No delay happens between attempts. -/
def fetchGo (attempt : Nat → Except String Bytes) : Nat → Nat → Except (Nat × String) Bytes
  | left, retry_count =>
    match attempt retry_count with
    | .ok b => .ok b
    | .error e =>
      match left with
      | 0 => .error (retry_count, e)
      | left' + 1 => fetchGo attempt left' (retry_count + 1)

/-- Processing of one segment by a worker: the retry loop (at most 6 total
attempts), then decryption of the fetched body; a decryption failure is
propagated at once, without any further fetch attempt. -/
def processSegment (attempt : Nat → Except String Bytes)
    (decrypt : Bytes → Except String Bytes) : Except SegError Bytes :=
  match fetchGo attempt 5 0 with
  | .error (n, e) => .error (.maxRetry n e)
  | .ok b =>
    match decrypt b with
    | .error e => .error (.decrypt e)
    | .ok d => .ok d

/-! Progress-message width (fmt_space in Downloader::download). -/

/-- The parts of a DownloadFormat that the progress-width computation and
the subtitle loop read: audio locales (human-readable strings) and the
subtitle list with its not-closed-caption flags. -/
structure DLFormat where
  audios : List String
  subtitles : List (String × Bool)

/-- fmt_space of Downloader::download: the maximum length of
"Downloading L audio" over every audio track of every format.
Iterator::max yields none on an empty iterator and the source immediately
unwraps it, so none here is the panic that happens when no format has any
audio track. -/
def fmt_space (formats : List DLFormat) : Option Nat :=
  ((formats.map (fun f => f.audios.map
    (fun locale => ("Downloading " ++ locale ++ " audio").length))).flatten).max?

/-! Subtitle dispositions and closed-caption filtering
(Downloader::download). -/

/-- Substring test (str::contains with a literal pattern). -/
def containsSub (needle : List Char) : List Char → Bool
  | [] => needle.isEmpty
  | c :: rest => needle.isPrefixOf (c :: rest) || containsSub needle rest

/-- The forced-disposition arguments appended by Downloader::download: for
each subtitle stream index whose title contains "(CC)", the pair
-disposition:s:s:i forced; all other indices are skipped. -/
def cc_disposition_args (subtitle_titles : List String) : List String :=
  ((subtitle_titles.enum).map (fun q =>
    if containsSub ("(CC)").toList q.2.toList then
      ["-disposition:s:s:" ++ toString q.1, "forced"]
    else [])).flatten

/-- The closed-caption filter of the per-format subtitle loop: a subtitle
with not_cc = false is skipped when no_closed_caption is set
(if !not_cc && self.no_closed_caption continue). -/
def kept_subtitles {α : Type} (subtitles : List (α × Bool)) (no_closed_caption : Bool) :
    List (α × Bool) :=
  subtitles.filter (fun q => !(!q.2 && no_closed_caption))

/-! Subtitle repair (fix_subtitles and format_naive_time). -/

/-- Characters of a line or document (String::from_utf8_lossy output;
the documents of interest are valid UTF-8). -/
abbrev Chars := List Char

/-- str::trim of the source (and the \s class of the regex), modelled on
ASCII whitespace. -/
def trimChars (l : Chars) : Chars :=
  ((l.dropWhile Char.isWhitespace).reverse.dropWhile Char.isWhitespace).reverse

/-- Numeric value of a decimal digit string. -/
def digitsVal (l : Chars) : Nat :=
  l.foldl (fun a c => a * 10 + (c.toNat - 48)) 0

/-- Greedy split into one-or-more leading digits and the rest (the regex
fragment \d+, which is followed by a non-digit literal in the dialogue
pattern, so greedy matching is exact). -/
def takeDigits (l : Chars) : Option (Chars × Chars) :=
  let ds := l.takeWhile Char.isDigit
  if ds.isEmpty then none else some (ds, l.dropWhile Char.isDigit)

/-- Raw text of one timestamp as captured by the group \d+:\d+:\d+\.\d+ :
the four digit substrings. -/
structure RawTime where
  hh : Chars
  mm : Chars
  ss : Chars
  ff : Chars
deriving DecidableEq, Repr

/-- Parser for the regex fragment \d+:\d+:\d+\.\d+ . -/
def parseTimeText (l : Chars) : Option (RawTime × Chars) :=
  match takeDigits l with
  | none => none
  | some (h, r1) =>
    match r1 with
    | ':' :: r2 =>
      match takeDigits r2 with
      | none => none
      | some (m, r3) =>
        match r3 with
        | ':' :: r4 =>
          match takeDigits r4 with
          | none => none
          | some (s, r5) =>
            match r5 with
            | '.' :: r6 =>
              match takeDigits r6 with
              | none => none
              | some (f, r7) => some (⟨h, m, s, f⟩, r7)
            | _ => none
        | _ => none
    | _ => none

/-- Match of the anchored dialogue regex of fix_subtitles,
Dialogue:\s(?P layer \d+),(?P start time),(?P end time), at the start of a
line: returns the layer digits, the two raw timestamps and the rest of the
line after the third comma (the part re.replace keeps). -/
def matchDialogue (line : Chars) : Option (Chars × RawTime × RawTime × Chars) :=
  if ("Dialogue:").toList.isPrefixOf line then
    match line.drop 9 with
    | [] => none
    | c :: r0 =>
      if c.isWhitespace then
        match takeDigits r0 with
        | none => none
        | some (layer, r1) =>
          match r1 with
          | ',' :: r2 =>
            match parseTimeText r2 with
            | none => none
            | some (startT, r3) =>
              match r3 with
              | ',' :: r4 =>
                match parseTimeText r4 with
                | none => none
                | some (endT, r5) =>
                  match r5 with
                  | ',' :: rest => some (layer, startT, endT, rest)
                  | _ => none
              | _ => none
          | _ => none
      else none
  else none

/-- A chrono NaiveTime value: whole seconds since midnight and the
nanosecond fraction, which chrono lets reach [1e9, 2e9) on a leap second.
NaiveTime orders by (secs, fraction), which val linearises. -/
structure NT where
  secs : Nat
  ns : Nat
deriving DecidableEq, Repr

/-- Linearisation of the NaiveTime order (the fraction stays below 2e9). -/
def NT.val (t : NT) : Nat := t.secs * 2000000000 + t.ns

/-- NaiveTime::parse_from_str with format "%H:%M:%S.%f" applied to the raw
captured digits; none is a chrono parse error, which the source unwraps
into a panic. Numeric fields consume at most two digits (nine for %f), so
longer captures leave unconsumed input and fail; values must be in range
(second 60 is accepted as a leap second, carried as an extra 1e9
nanoseconds). The %f directive is chrono's Numeric::Nanosecond: the digits
are read literally as a nanosecond count, not as a decimal fraction. -/
def parse_from_str (rt : RawTime) : Option NT :=
  if rt.hh.length ≤ 2 && rt.mm.length ≤ 2 && rt.ss.length ≤ 2 && rt.ff.length ≤ 9 then
    if digitsVal rt.hh < 24 && digitsVal rt.mm < 60 && digitsVal rt.ss ≤ 60 then
      if digitsVal rt.ss == 60 then
        some ⟨digitsVal rt.hh * 3600 + digitsVal rt.mm * 60 + 59,
          1000000000 + digitsVal rt.ff⟩
      else
        some ⟨digitsVal rt.hh * 3600 + digitsVal rt.mm * 60 + digitsVal rt.ss,
          digitsVal rt.ff⟩
    else none
  else none

/-- i32::from_str on the captured layer digits; none models the unwrap
panic on an out-of-range value. -/
def parseLayer (l : Chars) : Option Nat :=
  if digitsVal l < 2147483648 then some (digitsVal l) else none

/-- Big-endian fixed-width decimal rendering (k digits, zero padded). -/
def digitsFix : Nat → Nat → Chars
  | 0, _ => []
  | k + 1, v => digitsFix k (v / 10) ++ [Nat.digitChar (v % 10)]

/-- Decimal rendering of a Nat (Rust integer Display). -/
def natDigits (n : Nat) : Chars := (toString n).toList

/-- Zero padding to two places, the rendering of the chrono %H, %M and %S
numeric fields (minimum width two; the wider fallback cannot occur for a
valid NaiveTime). -/
def pad2 (n : Nat) : Chars := if n < 100 then digitsFix 2 n else natDigits n

/-- format_naive_time of the source: renders "%T.", appends the fraction
and drops the leading hour digit (single-digit hour per the ASS spec).
chrono renders %f as the nanosecond count modulo 1e9, zero-padded to nine
digits (digitsFix 9), so the formatted fraction never has length ≤ 2 and
the then-branch below is dead (in chrono it would panic on the invalid %2f
format); the written fraction is the first two of the nine digits: the
truncated centiseconds. -/
def format_naive_time (native_time : NT) : Chars :=
  let formatted_time := digitsFix 9 (native_time.ns % 1000000000)
  (pad2 (native_time.secs / 3600) ++ ':' :: pad2 (native_time.secs % 3600 / 60) ++
    ':' :: pad2 (native_time.secs % 60) ++
    '.' :: (if formatted_time.length ≤ 2 then formatted_time else formatted_time.take 2)).drop 1

/-- The rendering-compatibility directive inserted into the script-info
section. -/
def sbsLine : Chars := ("ScaledBorderAndShadow: yes").toList

/-- One iteration of the line loop of fix_subtitles: a script-info header
line gets the directive appended (with an embedded newline), a dialogue
line whose parsed start or end exceeds max_length is rewritten in place
with clipped, re-serialised timestamps, and any other line is kept; the
second component is the start time recorded into the sort entries
(the clipped value for a rewritten line). none models a panic of an unwrap
on a regex-matched line that chrono or i32::from_str rejects. -/
def processLine (max_length : NT) (line : Chars) : Option (Chars × Option NT) :=
  if trimChars line = ("[Script Info]").toList then
    some (line ++ '\n' :: sbsLine, none)
  else
    match matchDialogue line with
    | none => some (line, none)
    | some (layerDigits, startRaw, endRaw, rest) =>
      match parse_from_str startRaw, parse_from_str endRaw with
      | some start, some stop =>
        if max_length.val < start.val ∨ max_length.val < stop.val then
          match parseLayer layerDigits with
          | none => none
          | some layer =>
            let start' := if max_length.val < start.val then max_length else start
            let stop' :=
              if max_length.val < start'.val ∨ max_length.val < stop.val then max_length else stop
            some (("Dialogue: ").toList ++ natDigits layer ++
              ',' :: format_naive_time start' ++ ',' :: format_naive_time stop' ++ ',' :: rest,
              some start')
        else some (line, some start)
      | _, _ => none

/-- str::split('\n') of the document. -/
def splitNl : Chars → List Chars
  | [] => [[]]
  | c :: r =>
    match splitNl r with
    | [] => []
    | h :: t => if c = '\n' then [] :: h :: t else (c :: h) :: t

/-- Vec::join("\n") of the lines. -/
def joinNl : List Chars → Chars
  | [] => []
  | [a] => a
  | a :: b :: t => a ++ '\n' :: joinNl (b :: t)

/-- First pass of fix_subtitles over the lines, numbering them from i:
the rewritten lines, entries.0 (recorded start and line position) and
entries.1 (the dialogue line positions, in document order). -/
def fixPass (max_length : NT) : List Chars → Nat → Option (List Chars × List (NT × Nat) × List Nat)
  | [], _ => some ([], [], [])
  | l :: ls, i =>
    match processLine max_length l with
    | none => none
    | some (l', startRec) =>
      match fixPass max_length ls (i + 1) with
      | none => none
      | some (ls', e0, e1) =>
        match startRec with
        | some t => some (l' :: ls', (t, i) :: e0, i :: e1)
        | none => some (l' :: ls', e0, e1)

/-- Vec::swap (indices are always in range at the call site). -/
def listSwap {α : Type} (l : List α) (i j : Nat) : List α :=
  match l[i]?, l[j]? with
  | some a, some b => (l.set i b).set j a
  | _, _ => l

/-- The swap loop of the sort fix: for each rank, the line at the original
position of the rank-th smallest start is swapped with the line at the
rank-th dialogue position whenever the two positions differ. -/
def applySwaps (lines : List Chars) (sorted : List (NT × Nat)) (e1 : List Nat) : List Chars :=
  (sorted.zip e1).foldl
    (fun acc q => if q.1.2 ≠ q.2 then listSwap acc q.1.2 q.2 else acc) lines

/-- Comparison used by entries.0.sort_by: the recorded NaiveTimes.
insertionSort with this total ≤ relation is a stable sort, matching Rust's
stable sort_by. -/
def entryLE (a b : NT × Nat) : Prop := a.1.val ≤ b.1.val

instance : DecidableRel entryLE := fun a b => Nat.decLe a.1.val b.1.val

/-- fix_subtitles of the source: the line pass (directive insertion,
timestamp clipping, entry collection), the stable sort of the entries by
recorded start time, the swap loop and the rejoin with newlines. none
models a panic. -/
def fix_subtitles (raw : Chars) (max_length : NT) : Option Chars :=
  match fixPass max_length (splitNl raw) 0 with
  | none => none
  | some (lines', e0, e1) =>
    some (joinNl (applySwaps lines' (List.insertionSort entryLE e0) e1))

/-- Spec-level effect of one clipping-free run on the lines: the directive
line inserted after each script-info header. -/
def insertDirective : List Chars → List Chars
  | [] => []
  | l :: ls =>
    if trimChars l = ("[Script Info]").toList then l :: sbsLine :: insertDirective ls
    else l :: insertDirective ls

/-- Decidable per-line hypothesis: a dialogue line parses and both its
timestamps already lie within max_length (no panic, no clipping). -/
def lineOk (max_length : NT) (l : Chars) : Bool :=
  match matchDialogue l with
  | none => true
  | some (_, startRaw, endRaw, _) =>
    match parse_from_str startRaw, parse_from_str endRaw with
    | some s, some e => s.val ≤ max_length.val && e.val ≤ max_length.val
    | _, _ => false

/-- Start times of the dialogue lines, in document order. -/
def dialogueStarts (ls : List Chars) : List NT :=
  ls.filterMap (fun l =>
    match matchDialogue l with
    | none => none
    | some (_, startRaw, _, _) => parse_from_str startRaw)

/-- Image of one clipping-free line under the line loop. -/
def lineMapNoClip (l : Chars) : Chars :=
  if trimChars l = ("[Script Info]").toList then l ++ '\n' :: sbsLine else l

/-- The ASS serialisation format_naive_time produces, written digit by
digit: a single hour digit, two-digit minutes and seconds, and exactly two
fraction digits, the truncated (floored) centiseconds of the nanosecond
field. -/
def assView (t : NT) : Chars :=
  Nat.digitChar (t.secs / 3600 % 10) ::
    ':' :: Nat.digitChar (t.secs % 3600 / 60 / 10 % 10) ::
    Nat.digitChar (t.secs % 3600 / 60 % 10) ::
    ':' :: Nat.digitChar (t.secs % 60 / 10 % 10) :: Nat.digitChar (t.secs % 60 % 10) ::
    '.' :: Nat.digitChar (t.ns % 1000000000 / 100000000 % 10) ::
    [Nat.digitChar (t.ns % 1000000000 / 10000000 % 10)]

theorem btreeRemove_length_eq {k : Int} : ∀ {l t : List (Int × Bytes)} {v : Bytes},
    btreeRemove k l = some (v, t) → t.length + 1 = l.length := by
  intro l
  induction l with
  | nil => intro t v h; simp [btreeRemove] at h
  | cons hd tl ih =>
    intro t v h
    simp only [btreeRemove] at h
    split at h
    · cases h; simp
    · cases hrec : btreeRemove k tl with
      | none => rw [hrec] at h; cases h
      | some pr =>
        rw [hrec] at h
        cases pr with
        | mk pv pt =>
          cases h
          have := ih hrec
          simp only [List.length_cons]
          omega

theorem btreeRemove_length {k : Int} {l t : List (Int × Bytes)} {v : Bytes}
    (h : btreeRemove k l = some (v, t)) : t.length < l.length := by
  have := btreeRemove_length_eq h
  omega

theorem drain_of_none {s : ReasmState} (h : btreeRemove s.dataPos s.buf = none) :
    drain s = s := by
  unfold drain
  cases hl : s.buf.length with
  | zero => rfl
  | succ n =>
    simp only [drainFuel]
    rw [h]

theorem drain_of_some {s : ReasmState} {b : Bytes} {rest : List (Int × Bytes)}
    (h : btreeRemove s.dataPos s.buf = some (b, rest)) :
    drain s = drain { dataPos := s.dataPos + 1, buf := rest, out := s.out ++ b } := by
  have hlen : rest.length + 1 = s.buf.length := btreeRemove_length_eq h
  unfold drain
  rw [← hlen]
  simp only [drainFuel]
  rw [h]

theorem joinRange_zero (p : Nat → Bytes) : joinRange p 0 = [] := rfl

theorem joinRange_succ (p : Nat → Bytes) (k : Nat) :
    joinRange p (k + 1) = joinRange p k ++ p k := by
  simp [joinRange, List.range_succ]

theorem sortedKeys_nodup {buf : List (Int × Bytes)} (h : SortedKeys buf) :
    (bufKeys buf).Nodup := by
  unfold bufKeys
  rw [List.nodup_iff_sublist]
  intro a hsub
  have : List.Pairwise (fun x y : Int => x < y) (List.map Prod.fst buf) := by
    exact (List.pairwise_map).mpr h
  have := this.sublist hsub
  simp at this

theorem mem_btreeInsert {k : Int} {v : Bytes} :
    ∀ {buf : List (Int × Bytes)} {q : Int × Bytes},
    q ∈ btreeInsert k v buf → q = (k, v) ∨ q ∈ buf := by
  intro buf
  induction buf with
  | nil => intro q hq; simp [btreeInsert] at hq; exact Or.inl hq
  | cons hd tl ih =>
    intro q hq
    simp only [btreeInsert] at hq
    split at hq
    · rcases List.mem_cons.mp hq with h | h
      · exact Or.inl h
      · exact Or.inr h
    · split at hq
      · rcases List.mem_cons.mp hq with h | h
        · exact Or.inl h
        · exact Or.inr (List.mem_cons_of_mem _ h)
      · rcases List.mem_cons.mp hq with h | h
        · exact Or.inr (List.mem_cons.mpr (Or.inl h))
        · rcases ih h with h' | h'
          · exact Or.inl h'
          · exact Or.inr (List.mem_cons_of_mem _ h')

theorem bufKeys_btreeInsert_perm {k : Int} {v : Bytes} :
    ∀ {buf : List (Int × Bytes)}, k ∉ bufKeys buf →
    (bufKeys (btreeInsert k v buf)).Perm (k :: bufKeys buf) := by
  intro buf
  induction buf with
  | nil => intro _; simp [btreeInsert, bufKeys]
  | cons hd tl ih =>
    intro hk
    simp only [bufKeys, List.map_cons, List.mem_cons] at hk
    push_neg at hk
    simp only [btreeInsert]
    split
    · simp [bufKeys]
    · split
      · next heq => exact absurd heq hk.1
      · have htl := ih hk.2
        simp only [bufKeys, List.map_cons]
        exact (htl.cons hd.1).trans (List.Perm.swap k hd.1 (List.map Prod.fst tl))

theorem btreeInsert_sorted {k : Int} {v : Bytes} :
    ∀ {buf : List (Int × Bytes)}, SortedKeys buf → SortedKeys (btreeInsert k v buf) := by
  intro buf
  induction buf with
  | nil => intro _; simp [btreeInsert, SortedKeys]
  | cons hd tl ih =>
    intro hs
    have hs' : SortedKeys tl := hs.of_cons
    have hhd : ∀ q ∈ tl, hd.1 < q.1 := by
      intro q hq
      exact (List.pairwise_cons.mp hs).1 q hq
    simp only [btreeInsert]
    split
    · next hlt =>
      refine List.pairwise_cons.mpr ⟨?_, hs⟩
      intro q hq
      rcases List.mem_cons.mp hq with h | h
      · rw [h]; exact hlt
      · exact lt_trans hlt (hhd q h)
    · split
      · next heq =>
        refine List.pairwise_cons.mpr ⟨?_, hs'⟩
        intro q hq
        rw [heq]
        exact hhd q hq
      · next hlt hne =>
        have hgt : hd.1 < k := by
          rcases lt_trichotomy k hd.1 with h | h | h
          · exact absurd h hlt
          · exact absurd h hne
          · exact h
        refine List.pairwise_cons.mpr ⟨?_, ih hs'⟩
        intro q hq
        rcases mem_btreeInsert hq with h | h
        · rw [h]; exact hgt
        · exact hhd q h

theorem btreeRemove_none_of_not_mem {k : Int} :
    ∀ {buf : List (Int × Bytes)}, k ∉ bufKeys buf → btreeRemove k buf = none := by
  intro buf
  induction buf with
  | nil => intro _; rfl
  | cons hd tl ih =>
    intro hk
    simp only [bufKeys, List.map_cons, List.mem_cons] at hk
    push_neg at hk
    simp only [btreeRemove]
    rw [if_neg hk.1, ih hk.2]

theorem btreeRemove_mem {k : Int} :
    ∀ {buf rest : List (Int × Bytes)} {v : Bytes},
    btreeRemove k buf = some (v, rest) → (k, v) ∈ buf := by
  intro buf
  induction buf with
  | nil => intro rest v h; simp [btreeRemove] at h
  | cons hd tl ih =>
    intro rest v h
    simp only [btreeRemove] at h
    split at h
    · next heq =>
      cases h
      rw [heq]
      exact List.mem_cons.mpr (Or.inl (by simp))
    · cases hrec : btreeRemove k tl with
      | none => rw [hrec] at h; cases h
      | some pr =>
        rw [hrec] at h
        cases pr with
        | mk pv pt =>
          cases h
          exact List.mem_cons_of_mem _ (ih hrec)

theorem btreeRemove_subset {k : Int} :
    ∀ {buf rest : List (Int × Bytes)} {v : Bytes},
    btreeRemove k buf = some (v, rest) → ∀ q ∈ rest, q ∈ buf := by
  intro buf
  induction buf with
  | nil => intro rest v h; simp [btreeRemove] at h
  | cons hd tl ih =>
    intro rest v h
    simp only [btreeRemove] at h
    split at h
    · cases h
      intro q hq
      exact List.mem_cons_of_mem _ hq
    · cases hrec : btreeRemove k tl with
      | none => rw [hrec] at h; cases h
      | some pr =>
        rw [hrec] at h
        cases pr with
        | mk pv pt =>
          cases h
          intro q hq
          rcases List.mem_cons.mp hq with h' | h'
          · exact List.mem_cons.mpr (Or.inl h')
          · exact List.mem_cons_of_mem _ (ih hrec q h')

theorem btreeRemove_keys_perm {k : Int} :
    ∀ {buf rest : List (Int × Bytes)} {v : Bytes},
    btreeRemove k buf = some (v, rest) → (bufKeys buf).Perm (k :: bufKeys rest) := by
  intro buf
  induction buf with
  | nil => intro rest v h; simp [btreeRemove] at h
  | cons hd tl ih =>
    intro rest v h
    simp only [btreeRemove] at h
    split at h
    · next heq =>
      cases h
      simp [bufKeys, heq]
    · cases hrec : btreeRemove k tl with
      | none => rw [hrec] at h; cases h
      | some pr =>
        rw [hrec] at h
        cases pr with
        | mk pv pt =>
          cases h
          have := ih hrec
          simp only [bufKeys, List.map_cons]
          exact ((this.cons hd.1).trans (List.Perm.swap _ _ _))

theorem btreeRemove_sorted {k : Int} :
    ∀ {buf rest : List (Int × Bytes)} {v : Bytes},
    SortedKeys buf → btreeRemove k buf = some (v, rest) → SortedKeys rest := by
  intro buf
  induction buf with
  | nil => intro rest v _ h; simp [btreeRemove] at h
  | cons hd tl ih =>
    intro rest v hs h
    simp only [btreeRemove] at h
    split at h
    · cases h; exact hs.of_cons
    · cases hrec : btreeRemove k tl with
      | none => rw [hrec] at h; cases h
      | some pr =>
        rw [hrec] at h
        cases pr with
        | mk pv pt =>
          cases h
          refine List.pairwise_cons.mpr ⟨?_, ih hs.of_cons hrec⟩
          intro q hq
          exact (List.pairwise_cons.mp hs).1 q (btreeRemove_subset hrec q hq)

theorem btreeRemove_ne_none_of_mem {k : Int} :
    ∀ {buf : List (Int × Bytes)}, k ∈ bufKeys buf → btreeRemove k buf ≠ none := by
  intro buf
  induction buf with
  | nil => intro h; simp [bufKeys] at h
  | cons hd tl ih =>
    intro hmem
    simp only [bufKeys, List.map_cons, List.mem_cons] at hmem
    simp only [btreeRemove]
    split
    · simp
    · next hne =>
      rcases hmem with h | h
      · exact absurd h hne
      · have hne' := ih h
        cases hrec : btreeRemove k tl with
        | none => exact absurd hrec hne'
        | some pr => cases pr; simp

theorem invBuf_mono {N : Nat} {p : Nat → Bytes} {lo lo' : Nat} {buf : List (Int × Bytes)}
    (hle : lo' ≤ lo) (h : InvBuf N p lo buf) : InvBuf N p lo' buf := by
  intro q hq
  obtain ⟨j, h1, h2, h3, h4⟩ := h q hq
  exact ⟨j, h1, le_trans hle h2, h3, h4⟩

theorem invBuf_not_mem {N : Nat} {p : Nat → Bytes} {k : Nat} {buf : List (Int × Bytes)}
    (h : InvBuf N p (k + 1) buf) : (k : Int) ∉ bufKeys buf := by
  intro hmem
  obtain ⟨q, hq, hfst⟩ := List.mem_map.mp hmem
  obtain ⟨j, h1, h2, _, _⟩ := h q hq
  rw [h1] at hfst
  have : j = k := Int.ofNat_inj.mp hfst
  omega

/-- Behaviour of the drain loop started at cursor k with a sorted buffer whose
keys all lie in [k, N): it writes the payloads of the contiguous run of
buffered indices starting at k and stops at the first gap. -/
theorem drain_spec (N : Nat) (p : Nat → Bytes) :
    ∀ (n : Nat) (buf : List (Int × Bytes)) (k : Nat),
    buf.length ≤ n → k ≤ N →
    SortedKeys buf →
    InvBuf N p k buf →
    ∃ (k' : Nat) (buf' : List (Int × Bytes)),
      drain ⟨(k : Int), buf, joinRange p k⟩ = ⟨(k' : Int), buf', joinRange p k'⟩ ∧
      k ≤ k' ∧ k' ≤ N ∧
      SortedKeys buf' ∧
      InvBuf N p (k' + 1) buf' ∧
      (bufKeys buf).Perm ((List.range' k (k' - k)).map (Nat.cast : Nat → Int) ++ bufKeys buf') := by
  intro n
  induction n with
  | zero =>
    intro buf k hlen hkN hsort hinv
    have hbuf : buf = [] := List.length_eq_zero.mp (Nat.le_zero.mp hlen)
    subst hbuf
    refine ⟨k, [], ?_, le_refl k, hkN, List.Pairwise.nil, ?_, ?_⟩
    · exact drain_of_none (by rfl)
    · intro q hq; cases hq
    · simp [bufKeys]
  | succ n ih =>
    intro buf k hlen hkN hsort hinv
    cases hrem : btreeRemove ((k : Int)) buf with
    | none =>
      refine ⟨k, buf, drain_of_none hrem, le_refl k, hkN, hsort, ?_, by simp⟩
      intro q hq
      obtain ⟨j, h1, h2, h3, h4⟩ := hinv q hq
      have hjk : j ≠ k := by
        intro hjeq
        subst hjeq
        exact btreeRemove_ne_none_of_mem (List.mem_map.mpr ⟨q, hq, h1⟩) hrem
      exact ⟨j, h1, by omega, h3, h4⟩
    | some pr =>
      cases pr with
      | mk b rest =>
        have hmem : ((k : Int), b) ∈ buf := btreeRemove_mem hrem
        obtain ⟨j, h1, _, hjN, h4⟩ := hinv _ hmem
        have hjk : j = k := Int.ofNat_inj.mp (by simpa using h1.symm)
        subst hjk
        have hb : b = p j := h4
        have hkeys : (bufKeys buf).Perm ((j : Int) :: bufKeys rest) :=
          btreeRemove_keys_perm hrem
        have hrest_sorted : SortedKeys rest := btreeRemove_sorted hsort hrem
        have hnodup : (bufKeys buf).Nodup := sortedKeys_nodup hsort
        have hknotin : (j : Int) ∉ bufKeys rest := by
          have := hnodup.perm hkeys
          exact (List.nodup_cons.mp this).1
        have hrest_inv : InvBuf N p (j + 1) rest := by
          intro q hq
          obtain ⟨j', hh1, hh2, hh3, hh4⟩ := hinv q (btreeRemove_subset hrem q hq)
          have : j' ≠ j := by
            intro hjeq
            subst hjeq
            exact hknotin (List.mem_map.mpr ⟨q, hq, hh1⟩)
          exact ⟨j', hh1, by omega, hh3, hh4⟩
        have hstep : drain ⟨(j : Int), buf, joinRange p j⟩ =
            drain ⟨((j + 1 : Nat) : Int), rest, joinRange p (j + 1)⟩ := by
          rw [drain_of_some hrem, hb, ← joinRange_succ]
          norm_cast
        have hrestlen : rest.length ≤ n := by
          have := btreeRemove_length hrem
          omega
        obtain ⟨k', buf', heq, hle, hk'N, hsort', hinv', hperm⟩ :=
          ih rest (j + 1) hrestlen (by omega) hrest_sorted hrest_inv
        refine ⟨k', buf', hstep.trans heq, by omega, hk'N, hsort', hinv', ?_⟩
        have hrange : List.range' j (k' - j) = j :: List.range' (j + 1) (k' - (j + 1)) := by
          have h1 : k' - j = (k' - (j + 1)) + 1 := by omega
          rw [h1, List.range'_succ]
        rw [hrange]
        simpa using hkeys.trans (hperm.cons ((j : Int)))

theorem consume_cons (s : ReasmState) (a : Int × Bytes) (rest : List (Int × Bytes)) :
    consume s (a :: rest) = if a.1 < 0 then s else consume (recvStep s a) rest := rfl

/-- Main invariant of the consumer loop: started at cursor k with a sorted
buffer, if the buffered keys together with the keys still to arrive are
exactly [k, N) (each once, with the right payloads), the loop ends at some
cursor k' having written segments 0..k'-1 in order, with exactly the
received-but-not-yet-writable keys of [k', N) buffered. -/
theorem consume_inv (N : Nat) (p : Nat → Bytes) :
    ∀ (rem : List (Int × Bytes)) (k : Nat) (buf : List (Int × Bytes)),
    k ≤ N →
    SortedKeys buf →
    InvBuf N p (k + 1) buf →
    (bufKeys buf ++ rem.map Prod.fst).Perm ((List.range' k (N - k)).map (Nat.cast : Nat → Int)) →
    (∀ q ∈ rem, ∃ j : Nat, q.1 = (j : Int) ∧ q.2 = p j) →
    ∃ (k' : Nat) (buf' : List (Int × Bytes)),
      consume ⟨(k : Int), buf, joinRange p k⟩ rem = ⟨(k' : Int), buf', joinRange p k'⟩ ∧
      k' ≤ N ∧ SortedKeys buf' ∧ InvBuf N p (k' + 1) buf' ∧
      (bufKeys buf').Perm ((List.range' k' (N - k')).map (Nat.cast : Nat → Int)) := by
  intro rem
  induction rem with
  | nil =>
    intro k buf hkN hsort hinv hperm _
    refine ⟨k, buf, rfl, hkN, hsort, hinv, ?_⟩
    simpa using hperm
  | cons a rem' ih =>
    intro k buf hkN hsort hinv hperm hvals
    obtain ⟨j, hj1, hj2⟩ := hvals a (List.mem_cons_self a rem')
    have hain : a.1 ∈ bufKeys buf ++ (a :: rem').map Prod.fst := by simp
    have hmemr : (j : Int) ∈ (List.range' k (N - k)).map (Nat.cast : Nat → Int) := by
      rw [← hj1]
      exact hperm.mem_iff.mp hain
    have hjrange : k ≤ j ∧ j < N := by
      obtain ⟨m, hm, hmeq⟩ := List.mem_map.mp hmemr
      have hmj : m = j := Int.ofNat_inj.mp hmeq
      subst hmj
      have := List.mem_range'_1.mp hm
      omega
    have hrhsnodup : ((List.range' k (N - k)).map (Nat.cast : Nat → Int)).Nodup :=
      List.Nodup.map (fun x y h => Int.ofNat_inj.mp h) (List.nodup_range' _ _)
    have hlnodup : (bufKeys buf ++ (a :: rem').map Prod.fst).Nodup :=
      hrhsnodup.perm hperm.symm
    have hlnodup' : (bufKeys buf ++ a.1 :: rem'.map Prod.fst).Nodup := by
      simpa using hlnodup
    obtain ⟨hKnodup, haRnodup, hdisj⟩ := List.nodup_append.mp hlnodup'
    have hanotinK : a.1 ∉ bufKeys buf := by
      intro hmem
      exact hdisj hmem (List.mem_cons_self _ _)
    have hanotinR : a.1 ∉ rem'.map Prod.fst := (List.nodup_cons.mp haRnodup).1
    have hnotneg : ¬ a.1 < 0 := by
      rw [hj1]
      omega
    have hvals' : ∀ q ∈ rem', ∃ j' : Nat, q.1 = (j' : Int) ∧ q.2 = p j' :=
      fun q hq => hvals q (List.mem_cons_of_mem _ hq)
    by_cases hcase : j = k
    · -- arrival at the cursor: write it, then drain a contiguous run
      subst hcase
      have ha1 : a.1 = (j : Int) := hj1
      have hrs : recvStep ⟨(j : Int), buf, joinRange p j⟩ a =
          drain ⟨((j + 1 : Nat) : Int), buf, joinRange p (j + 1)⟩ := by
        unfold recvStep
        rw [if_pos ha1.symm]
        congr 1
        simp only [ReasmState.mk.injEq]
        refine ⟨by omega, trivial, ?_⟩
        rw [hj2, joinRange_succ]
      obtain ⟨k₂, buf₂, hdrain, hk2ge, hk2N, hsort₂, hinv₂, hpermdrain⟩ :=
        drain_spec N p buf.length buf (j + 1) (le_refl _) (by omega) hsort hinv
      have hperm₂ : (bufKeys buf₂ ++ rem'.map Prod.fst).Perm
          ((List.range' k₂ (N - k₂)).map (Nat.cast : Nat → Int)) := by
        have hsplitr : List.range' j (N - j) = j :: List.range' (j + 1) (N - j - 1) := by
          have h1 : N - j = (N - j - 1) + 1 := by omega
          conv_lhs => rw [h1]
          rw [List.range'_succ]
        have hstep1 : (a.1 :: (bufKeys buf ++ rem'.map Prod.fst)).Perm
            ((List.range' j (N - j)).map (Nat.cast : Nat → Int)) := by
          refine List.Perm.trans ?_ hperm
          simpa using (@List.perm_middle Int a.1 (bufKeys buf) (rem'.map Prod.fst)).symm
        rw [hsplitr, ha1] at hstep1
        simp only [List.map_cons] at hstep1
        have hstep2 : (bufKeys buf ++ rem'.map Prod.fst).Perm
            ((List.range' (j + 1) (N - j - 1)).map (Nat.cast : Nat → Int)) := hstep1.cons_inv
        have hsplitr2 : List.range' (j + 1) (N - j - 1) =
            List.range' (j + 1) (k₂ - (j + 1)) ++ List.range' k₂ (N - k₂) := by
          have := List.range'_append (j + 1) (k₂ - (j + 1)) (N - k₂) 1
          simp only [one_mul] at this
          have harith : j + 1 + (k₂ - (j + 1)) = k₂ := by omega
          rw [harith] at this
          have harith2 : N - k₂ + (k₂ - (j + 1)) = N - j - 1 := by omega
          rw [harith2] at this
          exact this.symm
        rw [hsplitr2, List.map_append] at hstep2
        have hstep3 : ((List.range' (j + 1) (k₂ - (j + 1))).map (Nat.cast : Nat → Int) ++
            (bufKeys buf₂ ++ rem'.map Prod.fst)).Perm
            ((List.range' (j + 1) (k₂ - (j + 1))).map (Nat.cast : Nat → Int) ++
              (List.range' k₂ (N - k₂)).map (Nat.cast : Nat → Int)) := by
          refine List.Perm.trans ?_ hstep2
          rw [← List.append_assoc]
          exact (hpermdrain.symm.append_right (rem'.map Prod.fst))
        exact (List.perm_append_left_iff _).mp hstep3
      obtain ⟨k', buf', hcons, hk'N, hsort', hinv', hperm'⟩ :=
        ih k₂ buf₂ hk2N hsort₂ hinv₂ hperm₂ hvals'
      refine ⟨k', buf', ?_, hk'N, hsort', hinv', hperm'⟩
      rw [consume_cons, if_neg hnotneg, hrs, hdrain, hcons]
    · -- arrival beyond the cursor: buffer it
      have hjk : k < j := by omega
      have hne : ¬ ((⟨(k : Int), buf, joinRange p k⟩ : ReasmState).dataPos = a.1) := by
        rw [hj1]
        intro hc
        exact hcase (Int.ofNat_inj.mp hc).symm
      have hkeyperm := @bufKeys_btreeInsert_perm a.1 a.2 buf hanotinK
      have hrs : recvStep ⟨(k : Int), buf, joinRange p k⟩ a =
          ⟨(k : Int), btreeInsert a.1 a.2 buf, joinRange p k⟩ := by
        unfold recvStep
        rw [if_neg hne]
        apply drain_of_none
        apply btreeRemove_none_of_not_mem
        intro hmem
        rcases List.mem_cons.mp (hkeyperm.mem_iff.mp hmem) with h | h
        · exact hne h
        · exact invBuf_not_mem hinv h
      have hsort₂ : SortedKeys (btreeInsert a.1 a.2 buf) := btreeInsert_sorted hsort
      have hinv₂ : InvBuf N p (k + 1) (btreeInsert a.1 a.2 buf) := by
        intro q hq
        rcases mem_btreeInsert hq with h | h
        · subst h
          exact ⟨j, hj1, by omega, hjrange.2, hj2⟩
        · exact hinv q h
      have hperm₂ : (bufKeys (btreeInsert a.1 a.2 buf) ++ rem'.map Prod.fst).Perm
          ((List.range' k (N - k)).map (Nat.cast : Nat → Int)) := by
        refine List.Perm.trans (hkeyperm.append_right _) ?_
        refine List.Perm.trans ?_ hperm
        simpa using (@List.perm_middle Int a.1 (bufKeys buf) (rem'.map Prod.fst)).symm
      obtain ⟨k', buf', hcons, hk'N, hsort', hinv', hperm'⟩ :=
        ih k (btreeInsert a.1 a.2 buf) hkN hsort₂ hinv₂ hperm₂ hvals'
      refine ⟨k', buf', ?_, hk'N, hsort', hinv', hperm'⟩
      rw [consume_cons, if_neg hnotneg, hrs, hcons]

theorem flatten_set_perm {α : Type} :
    ∀ (ls : List (List α)) (i : Nat) (x : α) (rest : List α) (hi : i < ls.length),
    ls.get ⟨i, hi⟩ = x :: rest →
    ls.flatten.Perm (x :: (ls.set i rest).flatten) := by
  intro ls
  induction ls with
  | nil => intro i x rest hi; exact absurd hi (by simp)
  | cons h t ih =>
    intro i x rest hi hhead
    cases i with
    | zero =>
      simp only [List.get] at hhead
      subst hhead
      simp only [List.set, List.flatten_cons, List.cons_append]
      exact List.Perm.refl _
    | succ n =>
      simp only [List.get] at hhead
      have hrec := ih n x rest (by simpa using hi) hhead
      simp only [List.set, List.flatten_cons]
      exact (List.Perm.append_left h hrec).trans List.perm_middle

theorem interleaving_perm {α : Type} {ls : List (List α)} {out : List α}
    (h : Interleaving ls out) : out.Perm ls.flatten := by
  induction h with
  | nil ls hnil =>
    rw [List.flatten_eq_nil_iff.mpr hnil]
  | step ls i x rest out hi hhead _ ih =>
    exact (ih.cons x).trans (flatten_set_perm ls i x rest hi hhead).symm

theorem sum_map_ite_single {x c : Nat} :
    ∀ {L : List Nat}, L.Nodup →
    (L.map (fun l => if x = l then c else 0)).sum = if x ∈ L then c else 0 := by
  intro L
  induction L with
  | nil => intro _; simp
  | cons h t ih =>
    intro hnd
    obtain ⟨hnotin, hnd'⟩ := List.nodup_cons.mp hnd
    simp only [List.map_cons, List.sum_cons, ih hnd']
    by_cases hc : x = h
    · subst hc
      rw [if_pos rfl, if_neg hnotin, if_pos (List.mem_cons_self _ _)]
      omega
    · rw [if_neg hc]
      by_cases hm : x ∈ t
      · rw [if_pos hm, if_pos (List.mem_cons_of_mem _ hm)]
        simp
      · rw [if_neg hm, if_neg (by simp [hc, hm])]

/-- The static mod-W partition of segment indices covers each index of
[0, N) exactly once. -/
theorem laneIdx_flatten_perm (N W : Nat) (hW : 0 < W) :
    (((List.range W).map (laneIdx N W)).flatten).Perm (List.range N) := by
  rw [List.perm_iff_count]
  intro a
  rw [List.count_flatten, List.map_map]
  have hterm : ∀ l ∈ List.range W, (List.count a ∘ laneIdx N W) l =
      (fun l => if a % W = l then List.count a (List.range N) else 0) l := by
    intro l _
    simp only [Function.comp]
    unfold laneIdx
    by_cases hc : a % W = l
    · rw [if_pos hc]
      exact List.count_filter (by simpa using hc)
    · rw [if_neg hc]
      rw [List.count_eq_zero]
      intro hmem
      exact hc (by simpa using (List.mem_filter.mp hmem).2)
  rw [List.map_congr_left hterm, sum_map_ite_single (List.nodup_range W),
    if_pos (List.mem_range.mpr (Nat.mod_lt a hW))]

theorem allLanes_flatten_eq (p : Nat → Bytes) (N W : Nat) :
    (allLanes p N W).flatten =
      (((List.range W).map (laneIdx N W)).flatten).map (fun (i : Nat) => ((i : Int), p i)) := by
  unfold allLanes laneSends
  rw [List.map_flatten, List.map_map]
  rfl

theorem arrival_perm (p : Nat → Bytes) (N W : Nat) (hW : 0 < W) {arr : List (Int × Bytes)}
    (h : Interleaving (allLanes p N W) arr) :
    arr.Perm ((List.range N).map (fun (i : Nat) => ((i : Int), p i))) := by
  refine (interleaving_perm h).trans ?_
  rw [allLanes_flatten_eq]
  exact (laneIdx_flatten_perm N W hW).map _

/-- Full behaviour of the consumer over a complete, failure-free arrival
sequence: it writes exactly the payload concatenation in index order and
ends with an empty buffer. -/
theorem download_segments_complete (N : Nat) (p : Nat → Bytes)
    {arr : List (Int × Bytes)}
    (hperm : arr.Perm ((List.range N).map (fun (i : Nat) => ((i : Int), p i)))) :
    download_segments arr false = .ok (joinRange p N) := by
  have hinv0 : InvBuf N p (0 + 1) [] := fun q hq => absurd hq (List.not_mem_nil q)
  have hperm0 : (bufKeys [] ++ arr.map Prod.fst).Perm
      ((List.range' 0 (N - 0)).map (Nat.cast : Nat → Int)) := by
    simp only [bufKeys, List.map_nil, List.nil_append, Nat.sub_zero]
    rw [← List.range_eq_range']
    have hmm : ((List.range N).map (fun (i : Nat) => ((i : Int), p i))).map Prod.fst =
        (List.range N).map (Nat.cast : Nat → Int) := by
      rw [List.map_map]
      rfl
    rw [← hmm]
    exact hperm.map Prod.fst
  have hvals0 : ∀ q ∈ arr, ∃ j : Nat, q.1 = (j : Int) ∧ q.2 = p j := by
    intro q hq
    obtain ⟨i, _, hiq⟩ := List.mem_map.mp (hperm.mem_iff.mp hq)
    exact ⟨i, by rw [← hiq], by rw [← hiq]⟩
  obtain ⟨k', buf', hcons, hk'N, hsort', hinv', hpermf⟩ :=
    consume_inv N p arr 0 [] (Nat.zero_le N) List.Pairwise.nil hinv0 hperm0 hvals0
  obtain ⟨k₂, buf₂, hdrain, hge, hk2N, hsort₂, hinv₂, hpermd⟩ :=
    drain_spec N p buf'.length buf' k' (le_refl _) hk'N hsort'
      (invBuf_mono (by omega) hinv')
  have hcomb : ((List.range' k' (N - k')).map (Nat.cast : Nat → Int)).Perm
      ((List.range' k' (k₂ - k')).map (Nat.cast : Nat → Int) ++ bufKeys buf₂) :=
    hpermf.symm.trans hpermd
  have hk2 : k₂ = N := by
    by_contra hne
    have hlt : k₂ < N := lt_of_le_of_ne hk2N hne
    have hmem : ((k₂ : Nat) : Int) ∈ (List.range' k' (N - k')).map (Nat.cast : Nat → Int) :=
      List.mem_map.mpr ⟨k₂, List.mem_range'_1.mpr ⟨by omega, by omega⟩, rfl⟩
    rcases List.mem_append.mp (hcomb.mem_iff.mp hmem) with hmem3 | hmem3
    · obtain ⟨m, hm, hmeq⟩ := List.mem_map.mp hmem3
      have hmk : m = k₂ := Int.ofNat_inj.mp hmeq
      subst hmk
      have := List.mem_range'_1.mp hm
      omega
    · obtain ⟨q, hq, hfst⟩ := List.mem_map.mp hmem3
      obtain ⟨jj, hh1, hh2, hh3, _⟩ := hinv₂ q hq
      rw [hh1] at hfst
      have : jj = k₂ := Int.ofNat_inj.mp hfst
      omega
  subst hk2
  have hbuf2 : buf₂ = [] := by
    rw [List.eq_nil_iff_forall_not_mem]
    intro q hq
    obtain ⟨jj, _, hh2, hh3, _⟩ := hinv₂ q hq
    omega
  subst hbuf2
  have hc0 : consume ⟨0, [], []⟩ arr = ⟨(k' : Int), buf', joinRange p k'⟩ := by
    have hz : (⟨0, [], []⟩ : ReasmState) = ⟨((0 : Nat) : Int), [], joinRange p 0⟩ := rfl
    rw [hz, hcons]
  simp only [download_segments, hc0, hdrain, Bool.false_eq_true, if_false,
    List.isEmpty_nil, if_true]

theorem drain_eq (s : ReasmState) :
    drain s = match btreeRemove s.dataPos s.buf with
      | none => s
      | some (b, rest) => drain ⟨s.dataPos + 1, rest, s.out ++ b⟩ := by
  cases h : btreeRemove s.dataPos s.buf with
  | none => rw [drain_of_none h]
  | some pr =>
    cases pr with
    | mk b rest => rw [drain_of_some h]

theorem drain_buf_subset : ∀ (n : Nat) (s : ReasmState), s.buf.length ≤ n →
    ∀ q ∈ (drain s).buf, q ∈ s.buf := by
  intro n
  induction n with
  | zero =>
    intro s hlen q hq
    have hnil : s.buf = [] := List.length_eq_zero.mp (Nat.le_zero.mp hlen)
    rw [drain_of_none (by rw [hnil]; rfl)] at hq
    exact hq
  | succ n ih =>
    intro s hlen q hq
    cases hrem : btreeRemove s.dataPos s.buf with
    | none => rw [drain_of_none hrem] at hq; exact hq
    | some pr =>
      cases pr with
      | mk b rest =>
        rw [drain_of_some hrem] at hq
        have hlen' : rest.length ≤ n := by
          have := btreeRemove_length hrem
          omega
        exact btreeRemove_subset hrem q (ih _ hlen' q hq)

theorem drain_sorted : ∀ (n : Nat) (s : ReasmState), s.buf.length ≤ n →
    SortedKeys s.buf → SortedKeys (drain s).buf := by
  intro n
  induction n with
  | zero =>
    intro s hlen hs
    have hnil : s.buf = [] := List.length_eq_zero.mp (Nat.le_zero.mp hlen)
    rw [drain_of_none (by rw [hnil]; rfl)]
    exact hs
  | succ n ih =>
    intro s hlen hs
    cases hrem : btreeRemove s.dataPos s.buf with
    | none => rw [drain_of_none hrem]; exact hs
    | some pr =>
      cases pr with
      | mk b rest =>
        rw [drain_of_some hrem]
        have hlen' : rest.length ≤ n := by
          have := btreeRemove_length hrem
          omega
        exact ih _ hlen' (btreeRemove_sorted hs hrem)

/-- The consumer loop stops accepting arrivals at the first failure marker:
everything after it is ignored. -/
theorem consume_stops_at_marker (m : Int) (mb : Bytes) :
    ∀ (pre post : List (Int × Bytes)) (s : ReasmState),
    (∀ q ∈ pre, ¬ q.1 < 0) → m < 0 →
    consume s (pre ++ (m, mb) :: post) = consume s pre := by
  intro pre
  induction pre with
  | nil =>
    intro post s _ hm
    simp only [List.nil_append, consume_cons]
    rw [if_pos hm]
    rfl
  | cons a t ih =>
    intro post s hpre hm
    simp only [List.cons_append, consume_cons]
    rw [if_neg (hpre a (List.mem_cons_self a t)), if_neg (hpre a (List.mem_cons_self a t))]
    exact ih post _ (fun q hq => hpre q (List.mem_cons_of_mem _ hq)) hm

theorem consume_sorted : ∀ (arr : List (Int × Bytes)) (s : ReasmState),
    SortedKeys s.buf → SortedKeys (consume s arr).buf := by
  intro arr
  induction arr with
  | nil => intro s hs; exact hs
  | cons a t ih =>
    intro s hs
    rw [consume_cons]
    split
    · exact hs
    · apply ih
      unfold recvStep
      split
      · exact drain_sorted _ _ (le_refl _) hs
      · exact drain_sorted _ _ (le_refl _) (btreeInsert_sorted hs)

/-- Every key left in the consumer buffer came in over the channel (or was
already buffered): the integrity bail can only name received indices. -/
theorem consume_buf_origin : ∀ (arr : List (Int × Bytes)) (s : ReasmState) (x : Int),
    x ∈ bufKeys (consume s arr).buf → x ∈ bufKeys s.buf ∨ x ∈ arr.map Prod.fst := by
  intro arr
  induction arr with
  | nil => intro s x hx; exact Or.inl hx
  | cons a t ih =>
    intro s x hx
    rw [consume_cons] at hx
    split at hx
    · exact Or.inl hx
    · by_cases hc : s.dataPos = a.1
      · have hrs : recvStep s a = drain ⟨s.dataPos + 1, s.buf, s.out ++ a.2⟩ := by
          unfold recvStep
          rw [if_pos hc]
        rw [hrs] at hx
        rcases ih _ x hx with h | h
        · obtain ⟨q, hq, hqx⟩ := List.mem_map.mp h
          have hq' := drain_buf_subset _ _ (le_refl _) q hq
          exact Or.inl (List.mem_map.mpr ⟨q, hq', hqx⟩)
        · refine Or.inr ?_
          simp only [List.map_cons]
          exact List.mem_cons_of_mem _ h
      · have hrs : recvStep s a = drain ⟨s.dataPos, btreeInsert a.1 a.2 s.buf, s.out⟩ := by
          unfold recvStep
          rw [if_neg hc]
        rw [hrs] at hx
        rcases ih _ x hx with h | h
        · obtain ⟨q, hq, hqx⟩ := List.mem_map.mp h
          have hq' := drain_buf_subset _ _ (le_refl _) q hq
          rcases mem_btreeInsert hq' with he | he
          · refine Or.inr ?_
            simp only [List.map_cons]
            subst he
            rw [← hqx]
            exact List.mem_cons_self _ _
          · exact Or.inl (List.mem_map.mpr ⟨q, he, hqx⟩)
        · refine Or.inr ?_
          simp only [List.map_cons]
          exact List.mem_cons_of_mem _ h

theorem chaptersSpecLoop_eq (video_len : Nat) :
    ∀ (events : List SkipEvent) (prevEnd : Nat),
    chaptersSpecLoop prevEnd video_len events =
      (chapterLoop prevEnd events).1 ++
        (if 10 < (video_len : Int) - ((chapterLoop prevEnd events).2 : Int)
         then [("Episode", (chapterLoop prevEnd events).2, video_len)] else []) := by
  intro events
  induction events with
  | nil => intro prevEnd; simp [chaptersSpecLoop, chapterLoop]
  | cons ev rest ih =>
    intro prevEnd
    obtain ⟨name, s, e⟩ := ev
    simp only [chaptersSpecLoop, chapterLoop, ih e]
    simp [List.append_assoc]

theorem write_ffmpeg_chapters_eq_spec (video_len : Nat) (events : List SkipEvent) :
    write_ffmpeg_chapters video_len events = chaptersSpec video_len events := by
  unfold write_ffmpeg_chapters chaptersSpec
  rw [chaptersSpecLoop_eq]

theorem fetchGo_ok {attempt : Nat → Except String Bytes} {rc : Nat} {b : Bytes}
    (h : attempt rc = .ok b) (left : Nat) : fetchGo attempt left rc = .ok b := by
  cases left with
  | zero => unfold fetchGo; rw [h]
  | succ n => unfold fetchGo; rw [h]

theorem fetchGo_error_zero {attempt : Nat → Except String Bytes} {rc : Nat} {e : String}
    (h : attempt rc = .error e) : fetchGo attempt 0 rc = .error (rc, e) := by
  unfold fetchGo
  rw [h]

theorem fetchGo_error_succ {attempt : Nat → Except String Bytes} {rc : Nat} {e : String}
    {n : Nat} (h : attempt rc = .error e) :
    fetchGo attempt (n + 1) rc = fetchGo attempt n (rc + 1) := by
  conv_lhs => unfold fetchGo
  rw [h]

theorem fetchGo_all_fail (attempt : Nat → Except String Bytes) :
    ∀ (left rc : Nat), left + rc = 5 →
    (∀ i, rc ≤ i → i ≤ 5 → ∃ s, attempt i = .error s) →
    ∀ e5, attempt 5 = .error e5 →
    fetchGo attempt left rc = .error (5, e5) := by
  intro left
  induction left with
  | zero =>
    intro rc h5 _ e5 he5
    have hrc : rc = 5 := by omega
    subst hrc
    exact fetchGo_error_zero he5
  | succ n ih =>
    intro rc h5 hall e5 he5
    obtain ⟨s, hs⟩ := hall rc (le_refl _) (by omega)
    rw [fetchGo_error_succ hs]
    exact ih (rc + 1) (by omega) (fun i h1 h2 => hall i (by omega) h2) e5 he5

theorem fetchGo_first_ok (attempt : Nat → Except String Bytes) {b : Bytes} (k : Nat) :
    ∀ (d rc : Nat), rc + d = k → k ≤ 5 →
    (∀ i, i < k → ∃ s, attempt i = .error s) →
    attempt k = .ok b →
    fetchGo attempt (5 - rc) rc = .ok b := by
  intro d
  induction d with
  | zero =>
    intro rc h hk5 _ hok
    have hrc : rc = k := by omega
    subst hrc
    exact fetchGo_ok hok _
  | succ n ih =>
    intro rc h hk5 hfail hok
    obtain ⟨s, hs⟩ := hfail rc (by omega)
    have h5 : 5 - rc = (5 - (rc + 1)) + 1 := by omega
    rw [h5, fetchGo_error_succ hs]
    exact ih (rc + 1) (by omega) hk5 hfail hok

theorem flatten_map_ite_filter {α β : Type} (c : α → Bool) (E : α → List β) :
    ∀ l : List α, (l.map (fun q => if c q then E q else [])).flatten =
      ((l.filter c).map E).flatten := by
  intro l
  induction l with
  | nil => rfl
  | cons a t ih =>
    cases hc : c a <;> simp [List.filter_cons, hc, ih]

theorem dropWhile_append_singleton {p : Char → Bool} {a : Char} (ha : p a = false) :
    ∀ xs : Chars, List.dropWhile p (xs ++ [a]) = List.dropWhile p xs ++ [a] := by
  intro xs
  induction xs with
  | nil => simp [List.dropWhile_cons, ha]
  | cons x t ih =>
    cases hx : p x <;> simp [List.dropWhile_cons, hx, ih]

theorem trimChars_dialogue_ne {l : Chars}
    (h : ("Dialogue:").toList.isPrefixOf l = true) :
    trimChars l ≠ ("[Script Info]").toList := by
  obtain ⟨t, ht⟩ := List.isPrefixOf_iff_prefix.mp h
  have hl : l = 'D' :: (("ialogue:").toList ++ t) := by rw [← ht]; rfl
  subst hl
  unfold trimChars
  rw [List.dropWhile_cons]
  rw [if_neg (by decide)]
  rw [List.reverse_cons]
  rw [dropWhile_append_singleton (by decide)]
  rw [List.reverse_append]
  intro heq
  have : 'D' = '[' := by
    have := congrArg (fun x => x.headI) heq
    simpa using this
  cases this

theorem matchDialogue_isPrefixOf {l : Chars} {q : Chars × RawTime × RawTime × Chars}
    (h : matchDialogue l = some q) : ("Dialogue:").toList.isPrefixOf l = true := by
  unfold matchDialogue at h
  by_cases hp : ("Dialogue:").toList.isPrefixOf l = true
  · exact hp
  · rw [if_neg hp] at h
    cases h

theorem script_not_dialogue {l : Chars} (h : trimChars l = ("[Script Info]").toList) :
    matchDialogue l = none := by
  cases hmd : matchDialogue l with
  | none => rfl
  | some q => exact absurd h (trimChars_dialogue_ne (matchDialogue_isPrefixOf hmd))

theorem processLine_script {M : NT} {l : Chars}
    (h : trimChars l = ("[Script Info]").toList) :
    processLine M l = some (l ++ '\n' :: sbsLine, none) := by
  unfold processLine
  rw [if_pos h]

theorem processLine_plain {M : NT} {l : Chars}
    (hs : trimChars l ≠ ("[Script Info]").toList) (hm : matchDialogue l = none) :
    processLine M l = some (l, none) := by
  unfold processLine
  rw [if_neg hs]
  simp only [hm]

theorem processLine_inbounds {M : NT} {l lds rest : Chars} {sr er : RawTime} {st en : NT}
    (hm : matchDialogue l = some (lds, sr, er, rest))
    (hs : parse_from_str sr = some st) (he : parse_from_str er = some en)
    (h1 : st.val ≤ M.val) (h2 : en.val ≤ M.val) :
    processLine M l = some (l, some st) := by
  unfold processLine
  rw [if_neg (trimChars_dialogue_ne (matchDialogue_isPrefixOf hm))]
  simp only [hm, hs, he]
  rw [if_neg (by omega)]

theorem processLine_clip {M : NT} {l lds rest : Chars} {sr er : RawTime} {st en : NT}
    {layer : Nat}
    (hm : matchDialogue l = some (lds, sr, er, rest))
    (hs : parse_from_str sr = some st) (he : parse_from_str er = some en)
    (hclip : M.val < st.val ∨ M.val < en.val)
    (hl : parseLayer lds = some layer) :
    processLine M l = some (("Dialogue: ").toList ++ natDigits layer ++
      ',' :: format_naive_time (if M.val < st.val then M else st) ++
      ',' :: format_naive_time (if M.val < en.val then M else en) ++ ',' :: rest,
      some (if M.val < st.val then M else st)) := by
  unfold processLine
  rw [if_neg (trimChars_dialogue_ne (matchDialogue_isPrefixOf hm))]
  simp only [hm, hs, he]
  rw [if_pos hclip]
  simp only [hl]
  by_cases hst : M.val < st.val
  · by_cases hen : M.val < en.val
    · simp [hst, hen]
    · simp [hst, hen]
  · by_cases hen : M.val < en.val
    · simp [hst, hen]
    · exact absurd hclip (by omega)

/-- Clipping-free pass: on lines whose dialogue cues all parse and lie
within max_length, the line loop only appends the directive to script-info
headers, and the collected entries pair the dialogue start times with the
dialogue line positions in document order. -/
theorem fixPass_no_clip (M : NT) : ∀ (ls : List Chars) (i0 : Nat),
    (∀ l ∈ ls, lineOk M l = true) →
    ∃ e0 e1, fixPass M ls i0 = some (ls.map lineMapNoClip, e0, e1) ∧
      e0.map Prod.fst = dialogueStarts ls ∧ e0.map Prod.snd = e1 := by
  intro ls
  induction ls with
  | nil => intro i0 _; exact ⟨[], [], rfl, rfl, rfl⟩
  | cons l ls ih =>
    intro i0 hok
    obtain ⟨e0, e1, hpass, hfst, hsnd⟩ :=
      ih (i0 + 1) (fun x hx => hok x (List.mem_cons_of_mem _ hx))
    by_cases hscript : trimChars l = ("[Script Info]").toList
    · refine ⟨e0, e1, ?_, ?_, hsnd⟩
      · simp only [fixPass, processLine_script hscript, hpass, List.map_cons]
        rw [lineMapNoClip, if_pos hscript]
      · rw [hfst]
        unfold dialogueStarts
        rw [List.filterMap_cons]
        simp [script_not_dialogue hscript]
    · cases hmd : matchDialogue l with
      | none =>
        refine ⟨e0, e1, ?_, ?_, hsnd⟩
        · simp only [fixPass, processLine_plain hscript hmd, hpass, List.map_cons]
          rw [lineMapNoClip, if_neg hscript]
        · rw [hfst]
          unfold dialogueStarts
          rw [List.filterMap_cons]
          simp [hmd]
      | some q =>
        obtain ⟨lds, sr, er, rest⟩ := q
        have hok0 := hok l (List.mem_cons_self _ _)
        unfold lineOk at hok0
        simp only [hmd] at hok0
        cases hps : parse_from_str sr with
        | none => simp only [hps] at hok0; cases hok0
        | some st =>
          cases hpe : parse_from_str er with
          | none => simp only [hps, hpe] at hok0; cases hok0
          | some en =>
            simp only [hps, hpe] at hok0
            simp only [Bool.and_eq_true, decide_eq_true_eq] at hok0
            refine ⟨(st, i0) :: e0, i0 :: e1, ?_, ?_, ?_⟩
            · simp only [fixPass,
                processLine_inbounds hmd hps hpe hok0.1 hok0.2, hpass, List.map_cons]
              rw [lineMapNoClip, if_neg hscript]
            · simp only [List.map_cons, hfst]
              unfold dialogueStarts
              rw [List.filterMap_cons]
              simp [hmd, hps]
            · simp only [List.map_cons, hsnd]

theorem applySwaps_id : ∀ (e0 : List (NT × Nat)) (lines : List Chars),
    applySwaps lines e0 (e0.map Prod.snd) = lines := by
  intro e0
  induction e0 with
  | nil => intro lines; rfl
  | cons a t ih =>
    intro lines
    unfold applySwaps
    simp only [List.map_cons, List.zip_cons_cons, List.foldl_cons]
    rw [if_neg (by simp)]
    exact ih lines

theorem joinNl_cons (a : Chars) (t : List Chars) (ht : t ≠ []) :
    joinNl (a :: t) = a ++ '\n' :: joinNl t := by
  cases t with
  | nil => exact absurd rfl ht
  | cons b t' => rfl

theorem insertDirective_ne_nil (l : Chars) (ls : List Chars) :
    insertDirective (l :: ls) ≠ [] := by
  unfold insertDirective
  split <;> simp

theorem joinNl_lineMap : ∀ ls : List Chars,
    joinNl (ls.map lineMapNoClip) = joinNl (insertDirective ls) := by
  intro ls
  induction ls with
  | nil => rfl
  | cons l t ih =>
    by_cases hs : trimChars l = ("[Script Info]").toList
    · cases t with
      | nil =>
        show joinNl [lineMapNoClip l] = joinNl (insertDirective [l])
        unfold insertDirective
        rw [if_pos hs, lineMapNoClip, if_pos hs]
        show l ++ '\n' :: sbsLine = joinNl [l, sbsLine]
        rfl
      | cons x xs =>
        rw [List.map_cons,
          joinNl_cons (lineMapNoClip l) ((x :: xs).map lineMapNoClip) (by simp)]
        unfold insertDirective
        rw [if_pos hs,
          joinNl_cons l (sbsLine :: insertDirective (x :: xs)) (by simp),
          joinNl_cons sbsLine (insertDirective (x :: xs)) (insertDirective_ne_nil x xs)]
        rw [lineMapNoClip, if_pos hs, ih]
        simp
    · cases t with
      | nil =>
        show joinNl [lineMapNoClip l] = joinNl (insertDirective [l])
        unfold insertDirective
        rw [if_neg hs, lineMapNoClip, if_neg hs]
        rfl
      | cons x xs =>
        rw [List.map_cons,
          joinNl_cons (lineMapNoClip l) ((x :: xs).map lineMapNoClip) (by simp)]
        unfold insertDirective
        rw [if_neg hs,
          joinNl_cons l (insertDirective (x :: xs)) (insertDirective_ne_nil x xs)]
        rw [lineMapNoClip, if_neg hs, ih]

theorem splitNl_ne_nil : ∀ raw : Chars, splitNl raw ≠ [] := by
  intro raw
  induction raw with
  | nil => simp [splitNl]
  | cons c r ih =>
    unfold splitNl
    cases h : splitNl r with
    | nil => exact absurd h ih
    | cons hd tl =>
      simp only [h]
      split <;> simp

theorem splitNl_no_newline : ∀ (raw l : Chars), l ∈ splitNl raw → '\n' ∉ l := by
  intro raw
  induction raw with
  | nil =>
    intro l hl
    simp [splitNl] at hl
    simp [hl]
  | cons c r ih =>
    intro l hl
    unfold splitNl at hl
    cases h : splitNl r with
    | nil => exact absurd h (splitNl_ne_nil r)
    | cons hd tl =>
      simp only [h] at hl
      by_cases hc : c = '\n'
      · rw [if_pos hc] at hl
        rcases List.mem_cons.mp hl with h1 | h1
        · subst h1; simp
        · exact ih l (h ▸ h1)
      · rw [if_neg hc] at hl
        rcases List.mem_cons.mp hl with h1 | h1
        · subst h1
          intro hmem
          rcases List.mem_cons.mp hmem with h2 | h2
          · exact hc h2.symm
          · exact ih hd (h ▸ List.mem_cons_self hd tl) h2
        · exact ih l (h ▸ List.mem_cons_of_mem hd h1)

theorem splitNl_no_nl_id : ∀ l : Chars, '\n' ∉ l → splitNl l = [l] := by
  intro l
  induction l with
  | nil => intro _; rfl
  | cons c r ih =>
    intro hn
    have hc : ¬ c = '\n' := fun h => hn (h ▸ List.mem_cons_self c r)
    have hr : '\n' ∉ r := fun h => hn (List.mem_cons_of_mem c h)
    show splitNl (c :: r) = [c :: r]
    conv_lhs => unfold splitNl
    simp [ih hr, hc]

theorem splitNl_append_newline : ∀ (l rest : Chars), '\n' ∉ l →
    splitNl (l ++ '\n' :: rest) = l :: splitNl rest := by
  intro l
  induction l with
  | nil =>
    intro rest _
    show splitNl ('\n' :: rest) = [] :: splitNl rest
    conv_lhs => unfold splitNl
    cases h : splitNl rest with
    | nil => exact absurd h (splitNl_ne_nil rest)
    | cons hd tl => simp [h]
  | cons c l' ih =>
    intro rest hn
    have hc : ¬ c = '\n' := fun h => hn (h ▸ List.mem_cons_self c l')
    have hl' : '\n' ∉ l' := fun h => hn (List.mem_cons_of_mem c h)
    show splitNl (c :: (l' ++ '\n' :: rest)) = (c :: l') :: splitNl rest
    conv_lhs => unfold splitNl
    simp [ih rest hl', hc]

theorem splitNl_joinNl : ∀ ls : List Chars, ls ≠ [] → (∀ l ∈ ls, '\n' ∉ l) →
    splitNl (joinNl ls) = ls := by
  intro ls
  induction ls with
  | nil => intro h _; exact absurd rfl h
  | cons a t ih =>
    intro _ hn
    cases t with
    | nil =>
      show splitNl (joinNl [a]) = [a]
      exact splitNl_no_nl_id a (hn a (List.mem_cons_self a []))
    | cons b t' =>
      rw [joinNl_cons a (b :: t') (by simp)]
      rw [splitNl_append_newline a _ (hn a (List.mem_cons_self _ _))]
      rw [ih (by simp) (fun l hl => hn l (List.mem_cons_of_mem a hl))]

theorem insertDirective_mem : ∀ (ls : List Chars) (l : Chars),
    l ∈ insertDirective ls → l ∈ ls ∨ l = sbsLine := by
  intro ls
  induction ls with
  | nil => intro l hl; simp [insertDirective] at hl
  | cons a t ih =>
    intro l hl
    unfold insertDirective at hl
    split at hl
    · rcases List.mem_cons.mp hl with h1 | h1
      · exact Or.inl (h1 ▸ List.mem_cons_self a t)
      · rcases List.mem_cons.mp h1 with h2 | h2
        · exact Or.inr h2
        · rcases ih l h2 with h3 | h3
          · exact Or.inl (List.mem_cons_of_mem a h3)
          · exact Or.inr h3
    · rcases List.mem_cons.mp hl with h1 | h1
      · exact Or.inl (h1 ▸ List.mem_cons_self a t)
      · rcases ih l h1 with h3 | h3
        · exact Or.inl (List.mem_cons_of_mem a h3)
        · exact Or.inr h3

theorem matchDialogue_sbsLine : matchDialogue sbsLine = none := by decide

theorem dialogueStarts_insertDirective : ∀ ls : List Chars,
    dialogueStarts (insertDirective ls) = dialogueStarts ls := by
  intro ls
  induction ls with
  | nil => rfl
  | cons a t ih =>
    unfold insertDirective
    split
    · unfold dialogueStarts at *
      rw [List.filterMap_cons, List.filterMap_cons, List.filterMap_cons]
      simp only [matchDialogue_sbsLine]
      rw [ih]
    · unfold dialogueStarts at *
      rw [List.filterMap_cons, List.filterMap_cons]
      rw [ih]

/-- One clipping-free run of fix_subtitles: the entire effect on the
document is the insertion of the directive line after each script-info
header. -/
theorem fix_subtitles_no_clip (M : NT) (raw : Chars)
    (h1 : ∀ l ∈ splitNl raw, lineOk M l = true)
    (h2 : (dialogueStarts (splitNl raw)).Pairwise (fun a b : NT => a.val ≤ b.val)) :
    fix_subtitles raw M = some (joinNl (insertDirective (splitNl raw))) := by
  obtain ⟨e0, e1, hpass, hfst, hsnd⟩ := fixPass_no_clip M (splitNl raw) 0 h1
  unfold fix_subtitles
  simp only [hpass]
  have hsorted : List.Sorted entryLE e0 := by
    rw [← hfst] at h2
    exact (@List.pairwise_map (NT × Nat) NT Prod.fst
      (fun a b : NT => a.val ≤ b.val) e0).mp h2
  rw [List.Sorted.insertionSort_eq hsorted, ← hsnd, applySwaps_id, joinNl_lineMap]

/-- C1: for every segment count N, every lane count W > 0, segments
statically partitioned across the lanes by index mod W with each lane
sending in ascending index order, and every interleaving of the lane
sequences in which no lane fails, the bytes download_segments writes to
the sink are exactly the concatenation of the decrypted payloads in
ascending index order 0..N-1 — never in arrival order — with each index
written at most once. -/
theorem C1_ordered_reassembly (N W : Nat) (p : Nat → Bytes) (arr : List (Int × Bytes))
    (hW : 0 < W) (h : Interleaving (allLanes p N W) arr) :
    download_segments arr false = .ok (joinRange p N) :=
  download_segments_complete N p (arrival_perm p N W hW h)

/-- C1 witness: three segments over two lanes, delivered out of order
(1 before 0, then 2); the sink receives payloads 0, 1, 2 in order. -/
theorem C1_ordered_reassembly_witness :
    download_segments [((1 : Int), [1]), ((0 : Int), [0]), ((2 : Int), [2])] false =
      .ok (joinRange (fun i => [i]) 3) := by
  apply C1_ordered_reassembly 3 2 (fun i => [i]) _ (by decide)
  refine Interleaving.step _ 1 ((1 : Int), [1]) [] _ (by decide) (by decide) ?_
  refine Interleaving.step _ 0 ((0 : Int), [0]) [((2 : Int), [2])] _ (by decide) (by decide) ?_
  refine Interleaving.step _ 0 ((2 : Int), [2]) [] _ (by decide) (by decide) ?_
  exact Interleaving.nil _ (by decide)

/-- C2 counterexample: arrivals deliver segments 0 and 2 but never 1 and no
lane fails; the integrity bail reports exactly the buffered index 2 —
segment 1, the missing index where the flush stopped, is not in the
reported list, so the error does not report the missing segment indices. -/
theorem C2_missing_indices_counterexample :
    download_segments [((0 : Int), [10]), ((2 : Int), [30])] false =
      .error (.integrity [(2 : Int)]) ∧
    ((1 : Int) ∈ [(2 : Int)]) = False := by
  constructor
  · rfl
  · simp

/-- C2 amended: (a) on a worker-failure marker the consumer ignores all
later arrivals and download_segments propagates the worker error, never
returning success; (b) whenever the buffer is non-empty after the final
contiguous flush, download_segments fails with the integrity error whose
reported list is exactly the keys remaining in the buffer — the
received-but-never-written indices beyond the first gap — in ascending
order (not the never-received missing indices themselves). -/
theorem C2_failure_and_integrity :
    (∀ (pre post : List (Int × Bytes)) (m : Int) (mb : Bytes),
      (∀ q ∈ pre, ¬ q.1 < 0) → m < 0 →
      consume ⟨0, [], []⟩ (pre ++ (m, mb) :: post) = consume ⟨0, [], []⟩ pre ∧
      download_segments (pre ++ (m, mb) :: post) true = .error .worker) ∧
    (∀ arr : List (Int × Bytes),
      (drain (consume ⟨0, [], []⟩ arr)).buf ≠ [] →
      download_segments arr false =
        .error (.integrity (bufKeys (drain (consume ⟨0, [], []⟩ arr)).buf)) ∧
      (bufKeys (drain (consume ⟨0, [], []⟩ arr)).buf).Pairwise (fun a b => a < b) ∧
      ∀ x ∈ bufKeys (drain (consume ⟨0, [], []⟩ arr)).buf, x ∈ arr.map Prod.fst) := by
  constructor
  · intro pre post m mb hpre hm
    exact ⟨consume_stops_at_marker m mb pre post _ hpre hm, rfl⟩
  · intro arr hne
    refine ⟨?_, ?_, ?_⟩
    · unfold download_segments
      simp only [Bool.false_eq_true, if_false]
      rw [if_neg (by simpa [List.isEmpty_iff] using hne)]
      rfl
    · have h1 : SortedKeys (consume ⟨0, [], []⟩ arr).buf :=
        consume_sorted arr _ List.Pairwise.nil
      have h2 : SortedKeys (drain (consume ⟨0, [], []⟩ arr)).buf :=
        drain_sorted _ _ (le_refl _) h1
      exact (List.pairwise_map).mpr h2
    · intro x hx
      obtain ⟨q, hq, hqx⟩ := List.mem_map.mp hx
      have hq2 := drain_buf_subset _ _ (le_refl _) q hq
      have hxc : x ∈ bufKeys (consume ⟨0, [], []⟩ arr).buf :=
        List.mem_map.mpr ⟨q, hq2, hqx⟩
      rcases consume_buf_origin arr _ x hxc with h | h
      · simp [bufKeys] at h
      · exact h

/-- C2 witness: the amended theorem applied at concrete inputs — a run with
a failure marker after segment 0, and the gap run of the counterexample. -/
theorem C2_failure_and_integrity_witness :
    (consume ⟨0, [], []⟩ ([((0 : Int), [10])] ++ ((-1 : Int), []) :: [((1 : Int), [11])]) =
      consume ⟨0, [], []⟩ [((0 : Int), [10])] ∧
     download_segments ([((0 : Int), [10])] ++ ((-1 : Int), []) :: [((1 : Int), [11])]) true =
      .error .worker) ∧
    (download_segments [((0 : Int), [10]), ((2 : Int), [30])] false =
      .error (.integrity
        (bufKeys (drain (consume ⟨0, [], []⟩ [((0 : Int), [10]), ((2 : Int), [30])])).buf)) ∧
     (bufKeys (drain (consume ⟨0, [], []⟩
        [((0 : Int), [10]), ((2 : Int), [30])])).buf).Pairwise (fun a b => a < b) ∧
     ∀ x ∈ bufKeys (drain (consume ⟨0, [], []⟩ [((0 : Int), [10]), ((2 : Int), [30])])).buf,
       x ∈ ([((0 : Int), [10]), ((2 : Int), [30])]).map Prod.fst) := by
  constructor
  · exact C2_failure_and_integrity.1 [((0 : Int), [10])] [((1 : Int), [11])] (-1) []
      (by decide) (by decide)
  · exact C2_failure_and_integrity.2 [((0 : Int), [10]), ((2 : Int), [30])] (by decide)

/-- C3 (code bug evaluation): temp and destination on the same filesystem,
total 1000000 bytes, raw available 100000 bytes each, estimated requirement
60000 bytes. The source emits no warning on either path — it doubled the
available space (200000) instead of the requirement — although twice the
requirement (120000) exceeds the raw available space, the condition under
which the claim and the code comment expect a warning. -/
theorem C3_check_free_space_same_fs :
    check_free_space ⟨1000000, 100000⟩ ⟨1000000, 100000⟩ 60000 false = (none, none) ∧
    100000 < 2 * 60000 := by
  constructor
  · rfl
  · omega

/-- C4 counterexample: for events [(Intro,10,40)] and video length 100 the
chapters are Intro[10,40], Episode[40,100] — the leading gap is exactly 10
seconds, which does not exceed 10, so the claimed Episode[0,10] filler is
not produced. -/
theorem C4_gap_example_counterexample :
    write_ffmpeg_chapters 100 [("Intro", 10, 40)] = [("Intro", 10, 40), ("Episode", 40, 100)] ∧
    write_ffmpeg_chapters 100 [("Intro", 10, 40)] ≠
      [("Episode", 0, 10), ("Intro", 10, 40), ("Episode", 40, 100)] := by
  constructor
  · rfl
  · decide

/-- C4 amended: the chapter writer emits the corrected-example chapters
Intro[10,40], Episode[40,100] for events [(Intro,10,40)] and length 100
(the gap of exactly 10 gets no filler), and in general it synthesizes an
Episode filler before an event exactly when the gap from the previous
chapter end exceeds 10 seconds, and a trailing Episode chapter exactly
when the gap to the video length exceeds 10 seconds (the rule stated by
chaptersSpec). -/
theorem C4_chapter_filling :
    (∀ (video_len : Nat) (events : List SkipEvent),
      write_ffmpeg_chapters video_len events = chaptersSpec video_len events) ∧
    write_ffmpeg_chapters 100 [("Intro", 10, 40)] = [("Intro", 10, 40), ("Episode", 40, 100)] :=
  ⟨write_ffmpeg_chapters_eq_spec, rfl⟩

/-- C7: on transport or body-read failure a segment fetch is retried up to
5 additional times (at most 6 total attempts, consecutive, with nothing in
between); after the sixth failure the worker fails fatally carrying the
final retry count 5 and the last underlying error; after a successful fetch
at attempt k ≤ 5 the result is decided by decryption alone — a decryption
failure is fatal immediately and fetching is never retried. -/
theorem C7_retry_policy (attempt : Nat → Except String Bytes)
    (decrypt : Bytes → Except String Bytes) :
    ((∀ i, i ≤ 5 → ∃ s, attempt i = .error s) → ∀ e5, attempt 5 = .error e5 →
      processSegment attempt decrypt = .error (.maxRetry 5 e5)) ∧
    (∀ k, k ≤ 5 → (∀ i, i < k → ∃ s, attempt i = .error s) → ∀ b, attempt k = .ok b →
      (∀ d, decrypt b = .ok d → processSegment attempt decrypt = .ok d) ∧
      (∀ er, decrypt b = .error er → processSegment attempt decrypt = .error (.decrypt er))) := by
  constructor
  · intro hall e5 he5
    unfold processSegment
    rw [fetchGo_all_fail attempt 5 0 (by omega) (fun i _ h2 => hall i h2) e5 he5]
  · intro k hk hfail b hok
    have hrun : fetchGo attempt 5 0 = .ok b := by
      have := fetchGo_first_ok attempt k k 0 (by omega) hk hfail hok
      simpa using this
    constructor
    · intro d hd
      unfold processSegment
      rw [hrun]
      show (match decrypt b with
        | Except.error e => Except.error (SegError.decrypt e)
        | Except.ok d => Except.ok d) = _
      rw [hd]
    · intro er her
      unfold processSegment
      rw [hrun]
      show (match decrypt b with
        | Except.error e => Except.error (SegError.decrypt e)
        | Except.ok d => Except.ok d) = _
      rw [her]

/-- C7 witness: a segment whose six attempts all fail yields the fatal
max-retry error with the last error and count 5; a segment fetched at
attempt 2 whose decryption fails yields the fatal decrypt error at once. -/
theorem C7_retry_policy_witness :
    processSegment (fun i => .error ("E" ++ toString i)) (fun b => .ok b) =
      .error (.maxRetry 5 ("E" ++ toString 5)) ∧
    processSegment (fun i => if i = 2 then .ok [9] else .error "x") (fun _ => .error "bad") =
      .error (.decrypt "bad") := by
  constructor
  · exact (C7_retry_policy _ _).1 (fun i _ => ⟨_, rfl⟩) _ rfl
  · exact ((C7_retry_policy _ _).2 2 (by omega)
      (fun i hi => ⟨"x", by rw [if_neg (by omega)]⟩) [9] (by rfl)).2 "bad" rfl

/-- C8 (code bug evaluation): a formats list whose only format has zero
audio tracks and zero subtitles makes the fmt_space iterator empty, so
Iterator::max is None and the source's unwrap panics — zero-audio formats
are not accepted without panic; by contrast a stream with an empty segment
list downloads fine: no bytes are written and the result is success. -/
theorem C8_zero_tracks_and_segments :
    fmt_space [⟨[], []⟩] = none ∧ download_segments [] false = .ok [] := by
  constructor
  · rfl
  · rfl

/-- C9 counterexample: with subtitle titles "English (CC)" (a closed
caption) and "English" (not a closed caption), the forced disposition is
set on stream 0 — the closed-caption one — and not on stream 1, the
opposite of the claim that forced marks the non-closed-caption
alternatives. -/
theorem C9_forced_on_cc_counterexample :
    cc_disposition_args ["English (CC)", "English"] = ["-disposition:s:s:0", "forced"] ∧
    "-disposition:s:s:1" ∉ cc_disposition_args ["English (CC)", "English"] := by
  constructor
  · rfl
  · decide

/-- C9 amended: the forced disposition flag is set on exactly those
subtitle streams whose title contains "(CC)", i.e. the closed-caption
tracks; and a closed-caption subtitle is globally excluded from the
download exactly when the no-closed-caption option is set. -/
theorem C9_forced_dispositions :
    (∀ subtitle_titles : List String,
      cc_disposition_args subtitle_titles =
        (((subtitle_titles.enum).filter
            (fun q => containsSub ("(CC)").toList q.2.toList)).map
          (fun q => ["-disposition:s:s:" ++ toString q.1, "forced"])).flatten) ∧
    (∀ (α : Type) (subtitles : List (α × Bool)) (no_closed_caption : Bool) (q : α × Bool),
      q ∈ kept_subtitles subtitles no_closed_caption ↔
        q ∈ subtitles ∧ (q.2 = true ∨ no_closed_caption = false)) := by
  constructor
  · intro titles
    unfold cc_disposition_args
    exact flatten_map_ite_filter _ _ _
  · intro α subs noCC q
    unfold kept_subtitles
    rw [List.mem_filter]
    obtain ⟨x, b⟩ := q
    cases b <;> cases noCC <;> simp

theorem digitsFix_length : ∀ (k v : Nat), (digitsFix k v).length = k := by
  intro k
  induction k with
  | zero => intro v; rfl
  | succ n ih => intro v; simp [digitsFix, ih]

theorem digitsFix_take : ∀ (m k v : Nat),
    (digitsFix (k + m) v).take k = digitsFix k (v / 10 ^ m) := by
  intro m
  induction m with
  | zero =>
    intro k v
    rw [Nat.add_zero, List.take_of_length_le (by rw [digitsFix_length]), pow_zero,
      Nat.div_one]
  | succ n ih =>
    intro k v
    show (digitsFix ((k + n) + 1) v).take k = _
    simp only [digitsFix]
    rw [List.take_append_of_le_length (by rw [digitsFix_length]; omega)]
    rw [ih k (v / 10), Nat.div_div_eq_div_mul]
    rw [show (10 : Nat) * 10 ^ n = 10 ^ (n + 1) from by rw [pow_succ, Nat.mul_comm]]

theorem parse_from_str_secs_lt {rt : RawTime} {t : NT} (h : parse_from_str rt = some t) :
    t.secs < 86400 := by
  unfold parse_from_str at h
  split at h
  · split at h
    · next hrange =>
      simp only [Bool.and_eq_true, decide_eq_true_eq] at hrange
      split at h
      · cases h
        simp only []
        omega
      · next hs60 =>
        cases h
        simp only []
        have : digitsVal rt.ss ≠ 60 := by
          intro hc
          rw [hc] at hs60
          simp at hs60
        omega
    · cases h
  · cases h

theorem format_naive_time_eq_assView (t : NT) (h : t.secs < 86400) :
    format_naive_time t = assView t := by
  unfold format_naive_time assView
  have h1 : t.secs / 3600 < 100 := by omega
  have h2 : t.secs % 3600 / 60 < 100 := by omega
  have h3 : t.secs % 60 < 100 := by omega
  simp only [pad2]
  rw [if_pos h1, if_pos h2, if_pos h3]
  rw [if_neg (by rw [digitsFix_length]; omega)]
  rw [show (9 : Nat) = 2 + 7 from rfl, digitsFix_take 7 2 (t.ns % 1000000000)]
  simp [digitsFix, Nat.div_div_eq_div_mul]

/-- C5 counterexample: on the document consisting of the single line
[Script Info], running fix_subtitles twice (same max length) appends the
ScaledBorderAndShadow directive twice: the second run re-splits the
document, sees the header line again and inserts a second copy, so the
directive is not inserted exactly once and the double run differs from the
single run. -/
theorem C5_rerun_counterexample :
    fix_subtitles (("[Script Info]").toList) ⟨0, 0⟩ =
      some (("[Script Info]\nScaledBorderAndShadow: yes").toList) ∧
    fix_subtitles (("[Script Info]\nScaledBorderAndShadow: yes").toList) ⟨0, 0⟩ =
      some (("[Script Info]\nScaledBorderAndShadow: yes\nScaledBorderAndShadow: yes").toList) ∧
    ("[Script Info]\nScaledBorderAndShadow: yes\nScaledBorderAndShadow: yes").toList ≠
      ("[Script Info]\nScaledBorderAndShadow: yes").toList := by
  refine ⟨rfl, rfl, by decide⟩

/-- C5 amended: each run of fix_subtitles inserts one more copy of the
rendering-compatibility directive after every script-info header (so the
second run adds a second copy rather than none); apart from that, on a
document whose dialogue cues all parse, lie within max_length and are
already sorted by start time, a run changes nothing else — and the
chronological re-sort performs no line moves on such input (the sorted
entry list equals the collected one and the swap pass returns the lines
unchanged). -/
theorem C5_repair_rerun (M : NT) (raw : Chars)
    (h1 : ∀ l ∈ splitNl raw, lineOk M l = true)
    (h2 : (dialogueStarts (splitNl raw)).Pairwise (fun a b : NT => a.val ≤ b.val)) :
    fix_subtitles raw M = some (joinNl (insertDirective (splitNl raw))) ∧
    fix_subtitles (joinNl (insertDirective (splitNl raw))) M =
      some (joinNl (insertDirective (insertDirective (splitNl raw)))) ∧
    (∀ lines' e0 e1, fixPass M (splitNl raw) 0 = some (lines', e0, e1) →
      List.insertionSort entryLE e0 = e0 ∧
      applySwaps lines' (List.insertionSort entryLE e0) e1 = lines') := by
  have hsplit2 : splitNl (joinNl (insertDirective (splitNl raw))) =
      insertDirective (splitNl raw) := by
    apply splitNl_joinNl
    · cases hsp : splitNl raw with
      | nil => exact absurd hsp (splitNl_ne_nil raw)
      | cons a t => exact insertDirective_ne_nil a t
    · intro l hl
      rcases insertDirective_mem _ l hl with hh | hh
      · exact splitNl_no_newline raw l hh
      · subst hh; decide
  have h1' : ∀ l ∈ splitNl (joinNl (insertDirective (splitNl raw))), lineOk M l = true := by
    rw [hsplit2]
    intro l hl
    rcases insertDirective_mem _ l hl with hh | hh
    · exact h1 l hh
    · subst hh
      unfold lineOk
      rw [matchDialogue_sbsLine]
  have h2' : (dialogueStarts (splitNl (joinNl (insertDirective (splitNl raw))))).Pairwise
      (fun a b : NT => a.val ≤ b.val) := by
    rw [hsplit2, dialogueStarts_insertDirective]
    exact h2
  refine ⟨fix_subtitles_no_clip M raw h1 h2, ?_, ?_⟩
  · have hrun2 := fix_subtitles_no_clip M (joinNl (insertDirective (splitNl raw))) h1' h2'
    rw [hsplit2] at hrun2
    exact hrun2
  · intro lines' e0 e1 hfp
    obtain ⟨e0', e1', hpass, hfst, hsnd⟩ := fixPass_no_clip M (splitNl raw) 0 h1
    rw [hfp] at hpass
    simp only [Option.some.injEq, Prod.mk.injEq] at hpass
    obtain ⟨_, he0, he1⟩ := hpass
    subst he0
    subst he1
    have hsorted : List.Sorted entryLE e0 := by
      rw [← hfst] at h2
      exact (@List.pairwise_map (NT × Nat) NT Prod.fst
        (fun a b : NT => a.val ≤ b.val) e0).mp h2
    refine ⟨List.Sorted.insertionSort_eq hsorted, ?_⟩
    rw [List.Sorted.insertionSort_eq hsorted, ← hsnd, applySwaps_id]

/-- C5 witness: a two-line document (header plus one in-bounds dialogue
line) run through the amended theorem. -/
theorem C5_repair_rerun_witness :
    fix_subtitles (("[Script Info]\nDialogue: 0,0:00:01.00,0:00:02.00,A").toList) ⟨100, 0⟩ =
      some (joinNl (insertDirective
        (splitNl (("[Script Info]\nDialogue: 0,0:00:01.00,0:00:02.00,A").toList)))) ∧
    fix_subtitles (joinNl (insertDirective
        (splitNl (("[Script Info]\nDialogue: 0,0:00:01.00,0:00:02.00,A").toList)))) ⟨100, 0⟩ =
      some (joinNl (insertDirective (insertDirective
        (splitNl (("[Script Info]\nDialogue: 0,0:00:01.00,0:00:02.00,A").toList))))) := by
  have h := C5_repair_rerun ⟨100, 0⟩
    (("[Script Info]\nDialogue: 0,0:00:01.00,0:00:02.00,A").toList) (by decide) (by decide)
  exact ⟨h.1, h.2.1⟩

/-- C6 counterexample: the degenerate cue with start 20s, end 5s and
max_length 10s. The start exceeds max_length, so by the claim the end
should be clipped to max_length (serialising as 0:00:10.00); the source
re-tests the condition after clipping the start, so the end keeps its
original value 0:00:05.00. -/
theorem C6_end_clip_counterexample :
    processLine ⟨10, 0⟩ (("Dialogue: 0,0:00:20.00,0:00:05.00,Hi").toList) =
      some (("Dialogue: 0,0:00:10.00,0:00:05.00,Hi").toList, some (⟨10, 0⟩ : NT)) ∧
    format_naive_time (⟨10, 0⟩ : NT) = ("0:00:10.00").toList ∧
    ("Dialogue: 0,0:00:10.00,0:00:05.00,Hi").toList ≠
      ("Dialogue: 0,0:00:10.00,0:00:10.00,Hi").toList := by
  refine ⟨rfl, rfl, by decide⟩

/-- C6 amended: for a dialogue cue line matching the layer,start,end
pattern (with parseable timestamps): if both timestamps are within
max_length the whole line is unchanged; if either exceeds it, the line is
rewritten with the start clipped exactly when the start exceeds max_length
and the end clipped exactly when the end itself exceeds max_length (a start
beyond max_length does not force the end up to it), everything after the
third comma untouched; in particular a cue with end beyond max_length has
its end re-serialised as max_length. -/
theorem C6_timestamp_clipping (M : NT) (l lds rest : Chars) (sr er : RawTime) (st en : NT)
    (hm : matchDialogue l = some (lds, sr, er, rest))
    (hs : parse_from_str sr = some st) (he : parse_from_str er = some en) :
    (st.val ≤ M.val → en.val ≤ M.val → processLine M l = some (l, some st)) ∧
    (∀ layer, parseLayer lds = some layer → M.val < st.val ∨ M.val < en.val →
      processLine M l = some (("Dialogue: ").toList ++ natDigits layer ++
        ',' :: format_naive_time (if M.val < st.val then M else st) ++
        ',' :: format_naive_time (if M.val < en.val then M else en) ++ ',' :: rest,
        some (if M.val < st.val then M else st))) := by
  constructor
  · intro hb1 hb2
    exact processLine_inbounds hm hs he hb1 hb2
  · intro layer hl hclip
    exact processLine_clip hm hs he hclip hl

/-- C6 witness: a cue whose end (25s) exceeds max_length (10s): the start
stays 3s, the end is re-serialised as max_length. -/
theorem C6_timestamp_clipping_witness :
    processLine ⟨10, 0⟩ (("Dialogue: 0,0:00:03.00,0:00:25.00,Hi").toList) =
      some (("Dialogue: 0,0:00:03.00,0:00:10.00,Hi").toList, some (⟨3, 0⟩ : NT)) := by
  have h := (C6_timestamp_clipping ⟨10, 0⟩
      (("Dialogue: 0,0:00:03.00,0:00:25.00,Hi").toList) _ _ _ _ ⟨3, 0⟩ ⟨25, 0⟩
      rfl rfl rfl).2 0 rfl (by decide)
  rw [h]
  rfl

/-- C10: whenever fix_subtitles rewrites a dialogue line because a
timestamp exceeds max_length, both timestamps are re-serialised in the
assView shape: one hour digit and exactly two fraction digits obtained by
flooring the nanosecond field to centiseconds (truncation, not rounding) —
including max_length itself when the end is clipped to it — while a line
needing no clipping keeps its text verbatim. -/
theorem C10_truncated_serialization (M : NT) (l lds rest : Chars) (sr er : RawTime)
    (st en : NT) (hM : M.secs < 86400)
    (hm : matchDialogue l = some (lds, sr, er, rest))
    (hs : parse_from_str sr = some st) (he : parse_from_str er = some en) :
    (∀ layer, parseLayer lds = some layer → M.val < st.val ∨ M.val < en.val →
      processLine M l = some (("Dialogue: ").toList ++ natDigits layer ++
        ',' :: assView (if M.val < st.val then M else st) ++
        ',' :: assView (if M.val < en.val then M else en) ++ ',' :: rest,
        some (if M.val < st.val then M else st))) ∧
    (st.val ≤ M.val → en.val ≤ M.val → processLine M l = some (l, some st)) := by
  constructor
  · intro layer hl hclip
    have hb1 : (if M.val < st.val then M else st).secs < 86400 := by
      by_cases hc : M.val < st.val
      · rw [if_pos hc]; exact hM
      · rw [if_neg hc]; exact parse_from_str_secs_lt hs
    have hb2 : (if M.val < en.val then M else en).secs < 86400 := by
      by_cases hc : M.val < en.val
      · rw [if_pos hc]; exact hM
      · rw [if_neg hc]; exact parse_from_str_secs_lt he
    rw [processLine_clip hm hs he hclip hl,
      format_naive_time_eq_assView _ hb1, format_naive_time_eq_assView _ hb2]
  · intro hb1 hb2
    exact processLine_inbounds hm hs he hb1 hb2

/-- C10 witness: max_length 60s + 123456789ns; the end (100s) exceeds it
and serialises as 0:01:00.12 — the sub-centisecond digits of max_length
are floored away — while the start 2s + 50ns becomes 0:00:02.00, losing
its 50 nanoseconds. -/
theorem C10_truncated_serialization_witness :
    processLine ⟨60, 123456789⟩ (("Dialogue: 12,0:00:02.50,0:01:40.7,Yo").toList) =
      some (("Dialogue: 12,0:00:02.00,0:01:00.12,Yo").toList, some (⟨2, 50⟩ : NT)) := by
  have h := (C10_truncated_serialization ⟨60, 123456789⟩
      (("Dialogue: 12,0:00:02.50,0:01:40.7,Yo").toList) _ _ _ _ ⟨2, 50⟩ ⟨100, 7⟩
      (by decide) rfl rfl rfl).1 12 rfl (by decide)
  rw [h]
  rfl

end CrunchyCli
